import Mathlib

/-!
# cltvt: Black-Scholes engine, volatility-target engine, quadrature

Shallow embedding of the C++ sources under `src/`.

* `double` is idealised as exact arithmetic in a linearly ordered field `α`
  (the theorems that need analysis take `α = ℝ`). Theorems about these definitions hold of the
  formulas the code evaluates; they do not cover what rounding adds: underflow to `0`,
  absorption of a small addend, overflow to infinity, NaN.
* Where rounding changes what the code does, the loops are repeated with every operation
  rounded (`integrate_fl`, `VolatilityTarget.vt_loop_fl`, `BlackScholes.populate_path_fl`);
  `round_double` is rounding to binary64, to nearest, ties to even. The theorems in double
  arithmetic are stated at inputs where every operation but the one that underflows or is
  absorbed is exact, so they do not depend on how the roundings are grouped.
* `size_t` is `Nat`; where the source adds to a `size_t` the sum is reduced mod `2 ^ 64`.
* `std::vector<double>` is `List α`.
* `ASSERT(cond, msg)` throws: fallible functions return `Except String _`.
* The `<cmath>` functions the sources call are the fields of a record `CMath α`, passed
  explicitly; `realMath` interprets them as the real functions.
* The `<random>` engine and distribution are the fields of a record `StdRandom α`;
  `pairCachingRandom` is the shape of a distribution that keeps a variate between calls.
* `int` is `Int`; the conversion `(int)std::ceil(..)` is taken without range limit.
-/

namespace cltvt

/-! ## preliminaries.hpp and `<cmath>` -/

/-- The `<cmath>` functions called by the sources (`std::exp`, `std::log`, `std::sqrt`,
`std::erf`), as an explicit record of operations on the number type. -/
structure CMath (α : Type) where
  exp : α → α
  log : α → α
  sqrt : α → α
  erf : α → α

/-- The error function `erf x = 2/√π ∫₀ˣ e^{-t²} dt`, which `std::erf` computes. -/
noncomputable def erf (x : ℝ) : ℝ :=
  2 / Real.sqrt Real.pi * ∫ t in (0 : ℝ)..x, Real.exp (-(t ^ 2))

/-- The `<cmath>` functions over the reals. Outside the domain of the real function the values
are Mathlib's conventions and not those of `<cmath>`: `Real.sqrt x = 0` for `x < 0`
(`std::sqrt` gives NaN), `Real.log 0 = 0` (`std::log` gives `-inf`), `Real.log x = Real.log (-x)`
for `x < 0` (NaN); and `Real.exp` is never `0`, whereas `std::exp` underflows to `0` below
about `-745.2`. -/
noncomputable def realMath : CMath ℝ where
  exp := Real.exp
  log := Real.log
  sqrt := Real.sqrt
  erf := erf

/-- Width of `size_t`. -/
def SIZE_WIDTH : Nat := 2 ^ 64

section Generic

variable {α : Type} [LinearOrderedField α]

/-! ## special_functions.cpp -/

/-- Function `normal_cdf` (special_functions.cpp:7-10). -/
def normal_cdf (m : CMath α) (x : α) : α :=
  0.5 * (1.0 + m.erf (x / m.sqrt 2))

/-- The number of loop passes `n_to_use` that `q_pochhammer` settles on
(special_functions.cpp:19-26): the argument `n` when it is supplied (`n ≥ 0`), and otherwise
`(int)std::ceil(nd)` with `nd = log(0.5 eps (1 - |q|)/|a|) / log |q|`, `eps = 1e-8`.
`std::abs` and `std::ceil` are exact, so they are the field's `|·|` and `⌈·⌉`; the conversion
to `int` is taken without range limit (in the code a value of `std::ceil(nd)` above `INT_MAX`,
as for `q` close to `1`, does not fit the `int`). -/
def q_pochhammer_n_to_use [FloorRing α] (m : CMath α) (a q : α) (n : Int) : Int :=
  if n < 0 then
    let eps : α := 1e-8
    let abs_q := |q|
    let nd := m.log (0.5 * eps * (1.0 - abs_q) / |a|) / m.log abs_q
    Int.ceil nd
  else n

/-- The loop state `(s, qk)` of `q_pochhammer` after `k` passes
(special_functions.cpp:28-34), started from `(0.0, 1.0)`. -/
def q_pochhammer_loop (m : CMath α) (a q : α) : Nat → α × α
  | 0 => (0.0, 1.0)
  | k + 1 =>
    let s := (q_pochhammer_loop m a q k).1
    let qk := (q_pochhammer_loop m a q k).2
    (s + m.log (1.0 - a * qk), qk * q)

/-- Function `q_pochhammer` (special_functions.cpp:12-36); the header gives `n` the default
`-1`. The loop `for (k = 0; k < n_to_use; ++k)` makes `n_to_use` passes, none when
`n_to_use ≤ 0`. -/
def q_pochhammer [FloorRing α] (m : CMath α) (a q : α) (n : Int) : Except String α :=
  if ¬ (|q| < 1) then .error "abs(q) < 1 must be true"
  else if |a| < 1e-12 then .ok 1.0
  else
    let n_to_use := q_pochhammer_n_to_use m a q n
    .ok (m.exp (q_pochhammer_loop m a q n_to_use.toNat).1)

/-! ## black_scholes.cpp -/

/-- Data members of `class BlackScholes` (black_scholes.hpp). -/
structure BlackScholes (α : Type) where
  m_discount_rate : α
  m_repo_rate : α
  m_volatility : α
  m_init_level : α

/-- Constructor `BlackScholes::BlackScholes` and `BlackScholes::create` (black_scholes.cpp:8-32):
the members are initialised from the arguments, then the two `ASSERT`s run in order. -/
def BlackScholes.create (discount_rate repo_rate volatility init_level : α) :
    Except String (BlackScholes α) :=
  if ¬ (volatility > 1e-12) then .error "volatility must be positive"
  else if ¬ (init_level > 1e-12) then .error "init_level must be positive"
  else .ok
    { m_discount_rate := discount_rate
      m_repo_rate := repo_rate
      m_volatility := volatility
      m_init_level := init_level }

/-- Method `BlackScholes::get_call_price` (black_scholes.cpp:54-62). -/
def BlackScholes.get_call_price (m : CMath α) (bs : BlackScholes α) (strike tenor : α) : α :=
  let forward := bs.m_init_level * m.exp ((bs.m_discount_rate - bs.m_repo_rate) * tenor)
  let discount_factor := m.exp (-bs.m_discount_rate * tenor)
  let total_vol := bs.m_volatility * m.sqrt tenor
  let d1 := m.log (forward / strike) / total_vol + 0.5 * total_vol
  let d2 := d1 - total_vol
  discount_factor * (forward * normal_cdf m d1 - strike * normal_cdf m d2)

/-- Method `BlackScholes::get_put_price` (black_scholes.cpp:64-72). -/
def BlackScholes.get_put_price (m : CMath α) (bs : BlackScholes α) (strike tenor : α) : α :=
  let forward := bs.m_init_level * m.exp ((bs.m_discount_rate - bs.m_repo_rate) * tenor)
  let discount_factor := m.exp (-bs.m_discount_rate * tenor)
  let total_vol := bs.m_volatility * m.sqrt tenor
  let d1 := m.log (strike / forward) / total_vol + 0.5 * total_vol
  let d2 := d1 - total_vol
  discount_factor * (strike * normal_cdf m (-d2) - forward * normal_cdf m (-d1))

/-- Accessor `BlackScholes::discount_rate` (black_scholes.cpp:34-37). -/
def BlackScholes.discount_rate (bs : BlackScholes α) : α := bs.m_discount_rate

/-- Accessor `BlackScholes::repo_rate` (black_scholes.cpp:39-42). -/
def BlackScholes.repo_rate (bs : BlackScholes α) : α := bs.m_repo_rate

/-- Accessor `BlackScholes::volatility` (black_scholes.cpp:44-47). -/
def BlackScholes.volatility (bs : BlackScholes α) : α := bs.m_volatility

/-- Accessor `BlackScholes::init_level` (black_scholes.cpp:49-52). -/
def BlackScholes.init_level (bs : BlackScholes α) : α := bs.m_init_level

/-- Method `BlackScholes::get_put_rho` (black_scholes.cpp:92-99). -/
def BlackScholes.get_put_rho (m : CMath α) (bs : BlackScholes α) (strike tenor : α) :
    Except String α :=
  let repo_bump := 0.01 * bs.m_repo_rate
  match BlackScholes.create bs.m_discount_rate (bs.m_repo_rate + repo_bump) bs.m_volatility
      bs.m_init_level with
  | .error msg => .error msg
  | .ok bs_bumped =>
    let price := bs.get_put_price m strike tenor
    let price_bumped := bs_bumped.get_call_price m strike tenor
    .ok ((price - price_bumped) / repo_bump)

/-- The loop of `BlackScholes::populate_path` (black_scholes.cpp:115-121). The two iterators
`it_dt`, `it_rn` are the unread suffixes of `dtimes` and `random_normals`; the loop runs until
`it_rn` reaches the end, multiplying `lev` by the step factor and pushing it on `stock_path`.
(The `ASSERT` before the loop makes both suffixes run out together.) -/
def BlackScholes.populate_path_loop (m : CMath α) (bs : BlackScholes α) (rho : α) :
    List α → List α → α → List α → List α
  | dt :: it_dt, z :: it_rn, lev, stock_path =>
    let lev := lev * m.exp ((rho - 0.5 * bs.m_volatility * bs.m_volatility) * dt
      + bs.m_volatility * m.sqrt dt * z)
    BlackScholes.populate_path_loop m bs rho it_dt it_rn lev (stock_path ++ [lev])
  | [], _ :: _, _, stock_path => stock_path
  | _, [], _, stock_path => stock_path

/-- Method `BlackScholes::populate_path` (black_scholes.cpp:101-122). `stock_path` is the in/out
vector: the result is its final content together with the outcome of the call. -/
def BlackScholes.populate_path (m : CMath α) (bs : BlackScholes α)
    (stock_path dtimes random_normals : List α) : List α × Except String Unit :=
  if ¬ (dtimes.length = random_normals.length) then
    (stock_path, .error "dtimes and  random_normals must have same size")
  else
    let stock_path := stock_path.take 0
    let rho := bs.m_discount_rate - bs.m_repo_rate
    let lev := bs.m_init_level
    let stock_path := stock_path ++ [lev]
    (BlackScholes.populate_path_loop m bs rho dtimes random_normals lev stock_path, .ok ())

/-! ## volatility_target.cpp -/

/-- Data members of `class VolatilityTarget` (volatility_target.hpp); `m_sde` is the shared
model. -/
structure VolatilityTarget (α : Type) where
  m_sde : BlackScholes α
  m_lamb : α
  m_target_vol : α
  m_tenor : α
  m_init_var : α
  m_init_level : α
  m_num_time_steps : Nat
  m_dt : α

/-- Constructor `VolatilityTarget::VolatilityTarget` (volatility_target.cpp:7-32): member initialisation
(with `m_dt = tenor / num_time_steps`), then the six `ASSERT`s in order. The first message
also carries the printed value of `lamb`, which is left out here. -/
def VolatilityTarget.create (sde : BlackScholes α) (lamb : α) (num_time_steps : Nat)
    (target_volatility tenor init_var init_level : α) : Except String (VolatilityTarget α) :=
  if ¬ (lamb > 0.0 ∧ lamb < 1.0) then .error "0.0 < lamb < 1.0 must be true"
  else if ¬ (target_volatility > 0.0) then .error "target_volatility must be positive"
  else if ¬ (tenor > 0.0) then .error "tenor must be positive"
  else if ¬ (num_time_steps > 1) then .error "num_time_steps > 1 must be true"
  else if ¬ (init_var > 1e-12) then .error "init_var must be positive"
  else if ¬ (init_level > 1e-12) then .error "init_level must be positive"
  else .ok
    { m_sde := sde
      m_lamb := lamb
      m_target_vol := target_volatility
      m_tenor := tenor
      m_init_var := init_var
      m_init_level := init_level
      m_num_time_steps := num_time_steps
      m_dt := tenor / (num_time_steps : α) }

/-- Accessor `VolatilityTarget::lambda` (volatility_target.cpp:34-37). -/
def VolatilityTarget.lambda (vt : VolatilityTarget α) : α := vt.m_lamb

/-- Accessor `VolatilityTarget::target_volatility` (volatility_target.cpp:39-42). -/
def VolatilityTarget.target_volatility (vt : VolatilityTarget α) : α := vt.m_target_vol

/-- Accessor `VolatilityTarget::tenor` (volatility_target.cpp:44-47). -/
def VolatilityTarget.tenor (vt : VolatilityTarget α) : α := vt.m_tenor

/-- Accessor `VolatilityTarget::init_var` (volatility_target.cpp:49-52). -/
def VolatilityTarget.init_var (vt : VolatilityTarget α) : α := vt.m_init_var

/-- Accessor `VolatilityTarget::init_level` (volatility_target.cpp:54-57). -/
def VolatilityTarget.init_level (vt : VolatilityTarget α) : α := vt.m_init_level

/-- Accessor `VolatilityTarget::num_time_steps` (volatility_target.cpp:59-62). -/
def VolatilityTarget.num_time_steps (vt : VolatilityTarget α) : Nat := vt.m_num_time_steps

/-- One pass through the body of the loop of `compute_vt_level` (volatility_target.cpp:76-79)
for index `i`, on the loop state `(level, var)`. The arithmetic is exact here, so that a
positive `var` stays positive; `VolatilityTarget.vt_step_fl` rounds it, and there `var` can
underflow to `0`. -/
def VolatilityTarget.vt_step (m : CMath α) (vt : VolatilityTarget α) (stock_path : List α)
    (st : α × α) (i : Nat) : α × α :=
  let level := st.1
  let var := st.2
  let ret := stock_path.getD i 0 / stock_path.getD (i - 1) 0 - 1.0
  let w := vt.m_target_vol / m.sqrt var
  let level := level * (1.0 + (1.0 - w) * vt.m_sde.m_discount_rate * vt.m_dt + w * ret)
  let var := vt.m_lamb * var + (1.0 - vt.m_lamb) * ret * ret / vt.m_dt
  (level, var)

/-- The loop state `(level, var)` of `compute_vt_level` after its first `k` passes
(`i = 1, ..., k`), started from `(m_init_level, m_init_var)` (volatility_target.cpp:72-80). -/
def VolatilityTarget.vt_loop (m : CMath α) (vt : VolatilityTarget α) (stock_path : List α)
    (k : Nat) : α × α :=
  (List.range' 1 k).foldl (VolatilityTarget.vt_step m vt stock_path)
    (vt.m_init_level, vt.m_init_var)

/-- Method `VolatilityTarget::compute_vt_level` (volatility_target.cpp:69-82). The loop
`for (i = 1; i < stock_path.size(); ++i)` makes `size - 1` passes (none for an empty vector);
`m_num_time_steps + 1` is a `size_t` sum. -/
def VolatilityTarget.compute_vt_level (m : CMath α) (vt : VolatilityTarget α)
    (stock_path : List α) : Except String α :=
  if ¬ (stock_path.length = (vt.m_num_time_steps + 1) % SIZE_WIDTH) then
    .error "stock_path size should be num_time_step + 1"
  else
    .ok (VolatilityTarget.vt_loop m vt stock_path (stock_path.length - 1)).1

/-! ## integration.cpp -/

/-- The `while (x1 < b)` loop of `integrate` (integration.cpp:14-20) on the state
`(x0, x1, s)`; `fuel` bounds the number of tests of the loop condition, and `none` means the
bound was reached before the loop ended. The additions `x0 += dx`, `x1 += dx` are exact here;
`integrate_loop_fl` rounds them, which can change the number of passes or keep the loop from
ending. -/
def integrate_loop (f : α → α) (dx b : α) : Nat → α → α → α → Option α
  | 0, _, _, _ => none
  | fuel + 1, x0, x1, s =>
    if x1 < b then
      let x := 0.5 * (x0 + x1)
      integrate_loop f dx b fuel (x0 + dx) (x1 + dx) (s + f x)
    else some s

/-- Function `integrate` (integration.cpp:5-23). `none`: the loop did not end within `fuel` tests;
`some (.error _)`: an `ASSERT` threw; `some (.ok s)`: the value returned. -/
def integrate (fuel : Nat) (f : α → α) (a b : α) (N : Nat) : Option (Except String α) :=
  if ¬ (a < b) then some (.error "a < b must be true")
  else if ¬ (N > 0) then some (.error "N > 0 must be true")
  else
    let dx := (b - a) / (N : α)
    (integrate_loop f dx b fuel a (a + dx) 0.0).map fun s => .ok (s * dx)

/-! ## random_number_generator.cpp and `<random>` -/

/-- The seed used when none is given (preliminaries.hpp:16). -/
def DEFAULT_RNG_SEED : Nat := 202504

/-- The `<random>` components `StandardNormalGenerator` is built from, as an explicit record:
the state types of `std::mt19937_64` and of `std::normal_distribution<double>`; the engine
state made from a seed (the constructor `std::mt19937_64(seed)`, which `m_rng.seed(seed)`
repeats); the state of a newly made `std::normal_distribution<double>(0.0, 1.0)`; and one call
`m_dist(m_rng)`, which returns a variate and may change both states. -/
structure StdRandom (α : Type) where
  Engine : Type
  Dist : Type
  mt19937_64 : Nat → Engine
  normal_distribution : Dist
  draw : Dist → Engine → α × Dist × Engine

/-- Data members of `class StandardNormalGenerator` (random_number_generator.hpp:21-23). -/
structure StandardNormalGenerator {α : Type} (L : StdRandom α) where
  m_seed : Nat
  m_rng : L.Engine
  m_dist : L.Dist

/-- Constructor `StandardNormalGenerator::StandardNormalGenerator`
(random_number_generator.cpp:5-9). -/
def StandardNormalGenerator.create {α : Type} (L : StdRandom α) (seed : Nat) :
    StandardNormalGenerator L :=
  { m_seed := seed
    m_rng := L.mt19937_64 seed
    m_dist := L.normal_distribution }

/-- Method `StandardNormalGenerator::seed` (random_number_generator.hpp:12-16):
`m_rng.seed(seed); m_seed = seed;`. The member `m_dist` is not touched. -/
def StandardNormalGenerator.seed {α : Type} {L : StdRandom α} (g : StandardNormalGenerator L)
    (seed : Nat) : StandardNormalGenerator L :=
  { g with
    m_rng := L.mt19937_64 seed
    m_seed := seed }

/-- Method `StandardNormalGenerator::reset` (random_number_generator.hpp:18):
`seed(m_seed)`. -/
def StandardNormalGenerator.reset {α : Type} {L : StdRandom α} (g : StandardNormalGenerator L) :
    StandardNormalGenerator L :=
  g.seed g.m_seed

/-- The loop of `populate_standard_normals` (random_number_generator.cpp:15-16) with `size - i`
passes left: each pass calls `m_dist(m_rng)` and pushes the variate on `rn_out`. -/
def StandardNormalGenerator.populate_loop {α : Type} {L : StdRandom α} :
    Nat → StandardNormalGenerator L → List α → List α × StandardNormalGenerator L
  | 0, g, rn_out => (rn_out, g)
  | left + 1, g, rn_out =>
    let r := L.draw g.m_dist g.m_rng
    StandardNormalGenerator.populate_loop left { g with m_dist := r.2.1, m_rng := r.2.2 }
      (rn_out ++ [r.1])

/-- Method `StandardNormalGenerator::populate_standard_normals`
(random_number_generator.cpp:11-17): the final content of `rn_out` and the generator after
the call. -/
def StandardNormalGenerator.populate_standard_normals {α : Type} {L : StdRandom α}
    (g : StandardNormalGenerator L) (rn_out : List α) (size : Nat) :
    List α × StandardNormalGenerator L :=
  let rn_out := rn_out.take 0
  StandardNormalGenerator.populate_loop size g rn_out

/-- A `<random>` library whose `normal_distribution` makes its variates two at a time and keeps
the second one for the next call, as libstdc++ does (bits/random.tcc, members `_M_saved` and
`_M_saved_available`); `gen_pair` is one round of the generating method on the engine, and the
state of the distribution is the kept variate, if any. -/
def pairCachingRandom {α : Type} (E : Type) (seedf : Nat → E) (gen_pair : E → α × α × E) :
    StdRandom α where
  Engine := E
  Dist := Option α
  mt19937_64 := seedf
  normal_distribution := none
  draw := fun saved e =>
    match saved with
    | some v => (v, none, e)
    | none => ((gen_pair e).1, some (gen_pair e).2.1, (gen_pair e).2.2)

/-- A stand-in library for closed examples: a pair-caching distribution over a counter, whose
round number `e` yields the two variates `2e` and `2e + 1`. -/
def counterRandom : StdRandom α :=
  pairCachingRandom Nat id fun e => ((2 * e : Nat), (2 * e + 1 : Nat), e + 1)

/-! ## volatility_target.cpp: simulation -/

/-- The loop of `simulate_vt_levels` (volatility_target.cpp:92-98) with `left` passes to go, on
the state `(rng, random_normals, stock_path, vt_levels)`; an exception of `populate_path` or of
`compute_vt_level` ends the call and leaves `vt_levels` as it is. -/
def VolatilityTarget.simulate_vt_levels_loop {L : StdRandom α} (m : CMath α)
    (vt : VolatilityTarget α) (dtimes : List α) :
    Nat → StandardNormalGenerator L → List α → List α → List α → List α × Except String Unit
  | 0, _, _, _, vt_levels => (vt_levels, .ok ())
  | left + 1, rng, random_normals, stock_path, vt_levels =>
    let drawn := rng.populate_standard_normals random_normals vt.m_num_time_steps
    let random_normals := drawn.1
    let rng := drawn.2
    let built := vt.m_sde.populate_path m stock_path dtimes random_normals
    let stock_path := built.1
    match built.2 with
    | .error msg => (vt_levels, .error msg)
    | .ok _ =>
      match vt.compute_vt_level m stock_path with
      | .error msg => (vt_levels, .error msg)
      | .ok level =>
        VolatilityTarget.simulate_vt_levels_loop m vt dtimes left rng random_normals stock_path
          (vt_levels ++ [level])

/-- Method `VolatilityTarget::simulate_vt_levels` (volatility_target.cpp:84-99): the final
content of `vt_levels` and the outcome of the call. -/
def VolatilityTarget.simulate_vt_levels (m : CMath α) (L : StdRandom α) (vt : VolatilityTarget α)
    (vt_levels : List α) (num_samples seed : Nat) : List α × Except String Unit :=
  let vt_levels := vt_levels.take 0
  let rng := StandardNormalGenerator.create L seed
  let dtimes := List.replicate vt.m_num_time_steps vt.m_dt
  VolatilityTarget.simulate_vt_levels_loop m vt dtimes num_samples rng [] [] vt_levels

/-! ## tests.cpp: the integrands of the multipliers -/

/-- The integrand `f` of `multiplier_U` (tests.cpp:35-37):
`1.0 / std::sqrt(q_pochhammer(-t * t, lambda))`, with `n` left at its default. -/
def multiplier_U_integrand [FloorRing α] (m : CMath α) (lambda t : α) : Except String α :=
  match q_pochhammer m (-t * t) lambda (-1) with
  | .error msg => .error msg
  | .ok p => .ok (1.0 / m.sqrt p)

/-- The integrand `f` of `multiplier_V` (tests.cpp:44-46):
`1.0 / std::sqrt(q_pochhammer(-t, lambda))`, with `n` left at its default. -/
def multiplier_V_integrand [FloorRing α] (m : CMath α) (lambda t : α) : Except String α :=
  match q_pochhammer m (-t) lambda (-1) with
  | .error msg => .error msg
  | .ok p => .ok (1.0 / m.sqrt p)

/-! ## Double arithmetic: the same loops with every operation rounded

In `double` every arithmetic operation returns its exact result rounded to the nearest binary64
number, ties to even. The definitions below repeat three loops of the sources with a rounding
`fl` applied after every operation, in the order in which C++ evaluates them; with `fl = id`
they are the exact loops above, with `fl = round_double` they follow the machine as long as no
result overflows to infinity or is a NaN. -/

/-- The exponent of the spacing of the binary64 numbers around `x`: the spacing is
`2^(e - 52)` for `2^e ≤ |x| < 2^(e+1)` with `e ≥ -1022`, and `2^(-1074)` below `2^(-1022)`
(subnormal numbers). -/
def double_ulp_exp [FloorRing α] (x : α) : Int :=
  max (Int.log 2 |x|) (-1022) - 52

/-- Rounding to the nearest integer, a tie going to the even one. -/
def round_ties_even [FloorRing α] (y : α) : Int :=
  if y - (Int.floor y : α) < 1 / 2 then Int.floor y
  else if 1 / 2 < y - (Int.floor y : α) then Int.floor y + 1
  else if Int.floor y % 2 = 0 then Int.floor y
  else Int.floor y + 1

/-- Rounding to binary64, to nearest, ties to even: the nearest multiple of the spacing around
`x`. Overflow to infinity is not represented. -/
def round_double [FloorRing α] (x : α) : α :=
  (round_ties_even (x / 2 ^ double_ulp_exp x) : α) * 2 ^ double_ulp_exp x

/-- The loop of `integrate` (integration.cpp:14-20) with every operation rounded by `fl`. -/
def integrate_loop_fl (fl : α → α) (f : α → α) (dx b : α) : Nat → α → α → α → Option α
  | 0, _, _, _ => none
  | fuel + 1, x0, x1, s =>
    if x1 < b then
      let x := fl (0.5 * fl (x0 + x1))
      integrate_loop_fl fl f dx b fuel (fl (x0 + dx)) (fl (x1 + dx)) (fl (s + f x))
    else some s

/-- Function `integrate` (integration.cpp:5-23) with every operation rounded by `fl`,
the conversion of `N` to `double` included. -/
def integrate_fl (fl : α → α) (fuel : Nat) (f : α → α) (a b : α) (N : Nat) :
    Option (Except String α) :=
  if ¬ (a < b) then some (.error "a < b must be true")
  else if ¬ (N > 0) then some (.error "N > 0 must be true")
  else
    let dx := fl (fl (b - a) / fl (N : α))
    (integrate_loop_fl fl f dx b fuel a (fl (a + dx)) 0.0).map fun s => .ok (fl (s * dx))

/-- Constructor `VolatilityTarget::VolatilityTarget` (volatility_target.cpp:7-32) with the
division `tenor / num_time_steps` rounded by `fl`. -/
def VolatilityTarget.create_fl (fl : α → α) (sde : BlackScholes α) (lamb : α)
    (num_time_steps : Nat) (target_volatility tenor init_var init_level : α) :
    Except String (VolatilityTarget α) :=
  if ¬ (lamb > 0.0 ∧ lamb < 1.0) then .error "0.0 < lamb < 1.0 must be true"
  else if ¬ (target_volatility > 0.0) then .error "target_volatility must be positive"
  else if ¬ (tenor > 0.0) then .error "tenor must be positive"
  else if ¬ (num_time_steps > 1) then .error "num_time_steps > 1 must be true"
  else if ¬ (init_var > 1e-12) then .error "init_var must be positive"
  else if ¬ (init_level > 1e-12) then .error "init_level must be positive"
  else .ok
    { m_sde := sde
      m_lamb := lamb
      m_target_vol := target_volatility
      m_tenor := tenor
      m_init_var := init_var
      m_init_level := init_level
      m_num_time_steps := num_time_steps
      m_dt := fl (tenor / fl (num_time_steps : α)) }

/-- The body of the loop of `compute_vt_level` (volatility_target.cpp:76-79) with every
operation, `std::sqrt` included, rounded by `fl`. -/
def VolatilityTarget.vt_step_fl (fl : α → α) (m : CMath α) (vt : VolatilityTarget α)
    (stock_path : List α) (st : α × α) (i : Nat) : α × α :=
  let level := st.1
  let var := st.2
  let ret := fl (fl (stock_path.getD i 0 / stock_path.getD (i - 1) 0) - 1.0)
  let w := fl (vt.m_target_vol / fl (m.sqrt var))
  let level := fl (level *
    fl (fl (1.0 + fl (fl (fl (1.0 - w) * vt.m_sde.m_discount_rate) * vt.m_dt)) + fl (w * ret)))
  let var := fl (fl (vt.m_lamb * var)
    + fl (fl (fl (fl (1.0 - vt.m_lamb) * ret) * ret) / vt.m_dt))
  (level, var)

/-- The loop state `(level, var)` of `compute_vt_level` after its first `k` passes, with every
operation rounded by `fl`. -/
def VolatilityTarget.vt_loop_fl (fl : α → α) (m : CMath α) (vt : VolatilityTarget α)
    (stock_path : List α) (k : Nat) : α × α :=
  (List.range' 1 k).foldl (VolatilityTarget.vt_step_fl fl m vt stock_path)
    (vt.m_init_level, vt.m_init_var)

/-- The loop of `BlackScholes::populate_path` (black_scholes.cpp:115-121) with every operation,
`std::sqrt` and `std::exp` included, rounded by `fl`. -/
def BlackScholes.populate_path_loop_fl (fl : α → α) (m : CMath α) (bs : BlackScholes α)
    (rho : α) : List α → List α → α → List α → List α
  | dt :: it_dt, z :: it_rn, lev, stock_path =>
    let drift := fl (fl (rho - fl (fl (0.5 * bs.m_volatility) * bs.m_volatility)) * dt)
    let shock := fl (fl (bs.m_volatility * fl (m.sqrt dt)) * z)
    let lev := fl (lev * fl (m.exp (fl (drift + shock))))
    BlackScholes.populate_path_loop_fl fl m bs rho it_dt it_rn lev (stock_path ++ [lev])
  | [], _ :: _, _, stock_path => stock_path
  | _, [], _, stock_path => stock_path

/-- Method `BlackScholes::populate_path` (black_scholes.cpp:101-122) with every operation
rounded by `fl`. -/
def BlackScholes.populate_path_fl (fl : α → α) (m : CMath α) (bs : BlackScholes α)
    (stock_path dtimes random_normals : List α) : List α × Except String Unit :=
  if ¬ (dtimes.length = random_normals.length) then
    (stock_path, .error "dtimes and  random_normals must have same size")
  else
    let stock_path := stock_path.take 0
    let rho := fl (bs.m_discount_rate - bs.m_repo_rate)
    let lev := bs.m_init_level
    let stock_path := stock_path ++ [lev]
    (BlackScholes.populate_path_loop_fl fl m bs rho dtimes random_normals lev stock_path,
      .ok ())

/-! ## Reference formulas, in the words of the specification -/


/-- The Black-Scholes-Merton call value as the specification writes it:
`exp(-r T) (F Φ(d1) - K Φ(d2))`, `F = S0 exp((r-q) T)`,
`d1 = ln(F/K)/(σ√T) + σ√T/2`, `d2 = d1 - σ√T`, `Φ = normal_cdf`. -/
def bsm_call (m : CMath α) (r q sigma S0 K T : α) : α :=
  let F := S0 * m.exp ((r - q) * T)
  let d1 := m.log (F / K) / (sigma * m.sqrt T) + sigma * m.sqrt T / 2
  let d2 := d1 - sigma * m.sqrt T
  m.exp (-(r * T)) * (F * normal_cdf m d1 - K * normal_cdf m d2)

/-- The Black-Scholes-Merton put value as the specification writes it:
`exp(-r T) (K Φ(-d2) - F Φ(-d1))` with the `F`, `d1`, `d2` of the call. -/
def bsm_put (m : CMath α) (r q sigma S0 K T : α) : α :=
  let F := S0 * m.exp ((r - q) * T)
  let d1 := m.log (F / K) / (sigma * m.sqrt T) + sigma * m.sqrt T / 2
  let d2 := d1 - sigma * m.sqrt T
  m.exp (-(r * T)) * (K * normal_cdf m (-d2) - F * normal_cdf m (-d1))

/-- The simple return of step `i`: `path[i]/path[i-1] - 1`. -/
def vt_ret (path : List α) (i : Nat) : α :=
  path.getD i 0 / path.getD (i - 1) 0 - 1

/-- The variance sequence of the specification: `var_0 = v0`,
`var_i = λ var_{i-1} + (1 - λ) ret_i² / dt`. -/
def vt_var (path : List α) (lam v0 dt : α) : Nat → α
  | 0 => v0
  | i + 1 => lam * vt_var path lam v0 dt i + (1 - lam) * vt_ret path (i + 1) ^ 2 / dt

/-- The level sequence of the specification: `level_0 = L0`,
`level_i = level_{i-1} (1 + (1 - w_i) r dt + w_i ret_i)`, `w_i = σ* / sqrt(var_{i-1})`. -/
def vt_level (m : CMath α) (path : List α) (L0 v0 sigma_target lam r dt : α) : Nat → α
  | 0 => L0
  | i + 1 =>
    let w := sigma_target / m.sqrt (vt_var path lam v0 dt i)
    vt_level m path L0 v0 sigma_target lam r dt i * (1 + (1 - w) * r * dt + w * vt_ret path (i + 1))

/-- The step factor of step `i ≥ 1` in the words of the specification:
`1 + (1 - w_i) r dt + w_i ret_i` with `w_i = σ* / sqrt(var_{i-1})`. -/
def vt_factor (m : CMath α) (path : List α) (v0 sigma_target lam r dt : α) (i : Nat) : α :=
  1 + (1 - sigma_target / m.sqrt (vt_var path lam v0 dt (i - 1))) * r * dt
    + sigma_target / m.sqrt (vt_var path lam v0 dt (i - 1)) * vt_ret path i

/-- The composite midpoint sum over `N` equal subintervals of `[a, b]`:
`dx Σ_{i<N} f(a + (i + 1/2) dx)`, `dx = (b - a)/N`. -/
def midpoint_sum (f : α → α) (a b : α) (N : Nat) : α :=
  let dx := (b - a) / (N : α)
  dx * ∑ i in Finset.range N, f (a + ((i : α) + 1 / 2) * dx)

/-- The path levels of the specification: `S_0 = S0` and
`S_i = S_{i-1} exp((r - q - σ²/2) dt_i + σ sqrt(dt_i) z_i)`, where `dt_i`, `z_i` are the
`i`-th entries (counted from 1) of `dtimes` and `shocks`. -/
def gbm_level (m : CMath α) (r q sigma S0 : α) (dtimes shocks : List α) : Nat → α
  | 0 => S0
  | i + 1 =>
    gbm_level m r q sigma S0 dtimes shocks i *
      m.exp ((r - q - sigma ^ 2 / 2) * dtimes.getD i 0
        + sigma * m.sqrt (dtimes.getD i 0) * shocks.getD i 0)

end Generic

/-- The generator state after `i` variates have been drawn from `g`. -/
def draw_state {α : Type} (L : StdRandom α) (g : StandardNormalGenerator L) :
    Nat → StandardNormalGenerator L
  | 0 => g
  | i + 1 =>
    { draw_state L g i with
      m_dist := (L.draw (draw_state L g i).m_dist (draw_state L g i).m_rng).2.1
      m_rng := (L.draw (draw_state L g i).m_dist (draw_state L g i).m_rng).2.2 }

/-- The variate number `i` (counted from 0) drawn from `g`. -/
def draw_value {α : Type} (L : StdRandom α) (g : StandardNormalGenerator L) (i : Nat) : α :=
  (L.draw (draw_state L g i).m_dist (draw_state L g i).m_rng).1

section Generic

variable {α : Type} [LinearOrderedField α]

/-- The path of sample number `i` of `simulate_vt_levels` in the words of the specification:
what `populate_path` builds from `N` time steps equal to `dt` and the block number `i` of `N`
consecutive draws of one sampler seeded once. -/
def vt_sample_path (m : CMath α) (L : StdRandom α) (vt : VolatilityTarget α) (seed i : Nat) :
    List α :=
  let N := vt.m_num_time_steps
  let block := (List.range N).map fun j =>
    draw_value L (StandardNormalGenerator.create L seed) (i * N + j)
  (vt.m_sde.populate_path m [] (List.replicate N vt.m_dt) block).1

/-- The sample number `i` of `simulate_vt_levels` in the words of the specification:
`compute_vt_level` applied to the path of that sample. -/
def vt_sample (m : CMath α) (L : StdRandom α) (vt : VolatilityTarget α) (seed i : Nat) :
    Except String α :=
  vt.compute_vt_level m (vt_sample_path m L vt seed i)

/-! ## Concrete inputs used to exercise the theorems -/

/-- The model of the validation scenarios (tests.cpp:137-145): `r = 0.05`, `q = 0.02`,
`σ = 0.5`, `S0 = 1`. -/
def example_model : BlackScholes α := ⟨0.05, 0.02, 0.5, 1⟩

/-- A model all of whose parameters are binary64 numbers: `r = 0`, `q = 0`, `σ = 0.5`,
`S0 = 1`. -/
def dyadic_model : BlackScholes α := ⟨0, 0, 0.5, 1⟩

/-- An engine on `dyadic_model` with `λ = 0.5`, `N = 1100`, `σ* = 0.25`, `T = 1`, `v0 = 1`,
`L0 = 1` (all binary64 numbers), as the constructor builds it in double arithmetic. -/
def long_engine [FloorRing α] : VolatilityTarget α :=
  ⟨dyadic_model, 0.5, 0.25, 1, 1, 1, 1100, round_double (1 / round_double ((1100 : Nat) : α))⟩

/-- An engine on `example_model` with `λ = 0.5`, `N = 2`, `σ* = 0.2`, `T = 1`, `v0 = 0.02`,
`L0 = 1`, as the constructor builds it. -/
def example_engine : VolatilityTarget α :=
  ⟨example_model, 0.5, 0.2, 1, 0.02, 1, 2, 1 / ((2 : Nat) : α)⟩

end Generic

/-! # Theorems -/

/-! ## The error function -/

theorem erf_neg (x : ℝ) : erf (-x) = -erf x := by
  unfold erf
  have h : (∫ t in (0 : ℝ)..(-x), Real.exp (-(t ^ 2)))
      = -∫ t in (0 : ℝ)..x, Real.exp (-(t ^ 2)) := by
    have hc := intervalIntegral.integral_comp_neg (a := 0) (b := x)
      (fun t : ℝ => Real.exp (-(t ^ 2)))
    simp only [neg_sq, neg_zero] at hc
    rw [hc, intervalIntegral.integral_symm]
  rw [h]; ring

theorem gauss_integral_pos {a b : ℝ} (h : a < b) :
    0 < ∫ t in a..b, Real.exp (-(t ^ 2)) := by
  apply intervalIntegral.intervalIntegral_pos_of_pos _ (fun t => Real.exp_pos _) h
  apply Continuous.intervalIntegrable
  fun_prop

theorem erf_pos_of_pos {x : ℝ} (h : 0 < x) : 0 < erf x := by
  unfold erf
  have hi := gauss_integral_pos h
  have hpi : 0 < Real.sqrt Real.pi := Real.sqrt_pos.mpr Real.pi_pos
  positivity

theorem erf_neg_of_neg {x : ℝ} (h : x < 0) : erf x < 0 := by
  have hp := erf_pos_of_pos (neg_pos.mpr h)
  rw [erf_neg] at hp
  linarith

theorem erf_strictMono : StrictMono erf := by
  intro x y hxy
  have hint : ∀ a b : ℝ, IntervalIntegrable (fun t : ℝ => Real.exp (-(t ^ 2)))
      MeasureTheory.volume a b := by
    intro a b
    apply Continuous.intervalIntegrable
    fun_prop
  have hsub := intervalIntegral.integral_interval_sub_left (hint 0 y) (hint 0 x)
  have hpos := gauss_integral_pos hxy
  have hpi : 0 < 2 / Real.sqrt Real.pi := div_pos (by norm_num) (Real.sqrt_pos.mpr Real.pi_pos)
  unfold erf
  have hlt : (∫ t in (0 : ℝ)..x, Real.exp (-(t ^ 2))) < ∫ t in (0 : ℝ)..y, Real.exp (-(t ^ 2)) := by
    linarith
  exact mul_lt_mul_of_pos_left hlt hpi

theorem realMath_exp : realMath.exp = Real.exp := rfl

theorem realMath_log : realMath.log = Real.log := rfl

theorem realMath_sqrt : realMath.sqrt = Real.sqrt := rfl

theorem realMath_erf : realMath.erf = erf := rfl

/-- Below zero the normal CDF is below one half. -/
theorem normal_cdf_lt_half {x : ℝ} (h : x < 0) : normal_cdf realMath x < 1 / 2 := by
  have h2 : 0 < Real.sqrt 2 := Real.sqrt_pos.mpr (by norm_num)
  have hx : x / Real.sqrt 2 < 0 := div_neg_of_neg_of_pos h h2
  have he := erf_neg_of_neg hx
  simp only [normal_cdf, realMath]
  norm_num
  linarith

/-- Reflection: `Φ(-x) = 1 - Φ(x)`. -/
theorem normal_cdf_neg (x : ℝ) : normal_cdf realMath (-x) = 1 - normal_cdf realMath x := by
  simp only [normal_cdf, realMath, neg_div, erf_neg]
  norm_num
  ring

/-! ## Black-Scholes prices -/

section BS

variable {α : Type} [LinearOrderedField α]

/-- A constructed model holds exactly the constructor arguments, and they passed the
two `ASSERT`s. -/
theorem bs_create_ok {r q sigma S0 : α} {bs : BlackScholes α}
    (h : BlackScholes.create r q sigma S0 = .ok bs) :
    bs = ⟨r, q, sigma, S0⟩ ∧ 1e-12 < sigma ∧ 1e-12 < S0 := by
  unfold BlackScholes.create at h
  split_ifs at h with h1 h2
  simp only [Except.ok.injEq] at h
  exact ⟨h.symm, h1, h2⟩

theorem bs_create_of_pos {r q sigma S0 : α} (h1 : 1e-12 < sigma) (h2 : 1e-12 < S0) :
    BlackScholes.create r q sigma S0 = .ok ⟨r, q, sigma, S0⟩ := by
  simp [BlackScholes.create, h1, h2]

/-- C3. For every constructed model and all `K > 0`, `T > 0`, `get_call_price K T` is the
Black-Scholes-Merton call value `exp(-rT) (F Φ(d1) - K Φ(d2))` of the specification
(whatever the `<cmath>` functions compute). -/
theorem get_call_price_eq_bsm_call (m : CMath α) (r q sigma S0 K T : α) (bs : BlackScholes α)
    (hbs : BlackScholes.create r q sigma S0 = .ok bs) (_hK : 0 < K) (_hT : 0 < T) :
    bs.get_call_price m K T = bsm_call m r q sigma S0 K T := by
  obtain ⟨rfl, -, -⟩ := bs_create_ok hbs
  have half : (0.5 : α) = 1 / 2 := by norm_num
  simp only [BlackScholes.get_call_price, bsm_call, half]
  ring_nf

end BS

theorem get_call_price_eq_bsm_call_witness :
    BlackScholes.create (0 : ℝ) 0 1 1 = .ok ⟨0, 0, 1, 1⟩ ∧ (0 : ℝ) < 2 ∧ (0 : ℝ) < 1 ∧
      (⟨0, 0, 1, 1⟩ : BlackScholes ℝ).get_call_price realMath 2 1
        = bsm_call realMath 0 0 1 1 2 1 :=
  have h : BlackScholes.create (0 : ℝ) 0 1 1 = .ok ⟨0, 0, 1, 1⟩ :=
    bs_create_of_pos (by norm_num) (by norm_num)
  ⟨h, by norm_num, by norm_num,
    get_call_price_eq_bsm_call realMath 0 0 1 1 2 1 _ h (by norm_num) (by norm_num)⟩

/-- What `get_put_price` computes, in terms of the `d1`, `d2` of the call formula:
`exp(-rT) (K Φ(d1) - F Φ(d2))`, the arguments of `Φ` having the wrong sign. -/
theorem get_put_price_eq (bs : BlackScholes ℝ) (K T : ℝ) :
    bs.get_put_price realMath K T =
      (let F := bs.m_init_level * Real.exp ((bs.m_discount_rate - bs.m_repo_rate) * T)
       let d1 := Real.log (F / K) / (bs.m_volatility * Real.sqrt T)
          + bs.m_volatility * Real.sqrt T / 2
       let d2 := d1 - bs.m_volatility * Real.sqrt T
       Real.exp (-(bs.m_discount_rate * T))
        * (K * normal_cdf realMath d1 - F * normal_cdf realMath d2)) := by
  have half : (0.5 : ℝ) = 1 / 2 := by norm_num
  simp only [BlackScholes.get_put_price, realMath, half]
  have hlog : ∀ F : ℝ, Real.log (K / F) = -Real.log (F / K) := by
    intro F
    rw [← Real.log_inv, inv_div]
  rw [hlog]
  ring_nf

/-- The difference of the two prices as the code computes them:
`exp(-rT) (F - K) (Φ(d1) + Φ(d2))`; parity would need `Φ(d1) + Φ(d2) = 1`. -/
theorem get_call_price_sub_get_put_price (bs : BlackScholes ℝ) (K T : ℝ) :
    bs.get_call_price realMath K T - bs.get_put_price realMath K T =
      (let F := bs.m_init_level * Real.exp ((bs.m_discount_rate - bs.m_repo_rate) * T)
       let d1 := Real.log (F / K) / (bs.m_volatility * Real.sqrt T)
          + bs.m_volatility * Real.sqrt T / 2
       let d2 := d1 - bs.m_volatility * Real.sqrt T
       Real.exp (-(bs.m_discount_rate * T))
        * ((F - K) * (normal_cdf realMath d1 + normal_cdf realMath d2))) := by
  rw [get_put_price_eq]
  have half : (0.5 : ℝ) = 1 / 2 := by norm_num
  simp only [BlackScholes.get_call_price, realMath, half]
  ring_nf

/-- The two normal CDF values add up to one only at opposite arguments. -/
theorem normal_cdf_add_eq_one_iff (x y : ℝ) :
    normal_cdf realMath x + normal_cdf realMath y = 1 ↔ x = -y := by
  have h2 : Real.sqrt 2 ≠ 0 := (Real.sqrt_pos.mpr (by norm_num)).ne'
  have hhalf : (0.5 : ℝ) = 1 / 2 := by norm_num
  have hone : (1.0 : ℝ) = 1 := by norm_num
  simp only [normal_cdf, realMath_erf, realMath_sqrt, hhalf, hone]
  constructor
  · intro h
    have he : erf (x / Real.sqrt 2) = erf (-y / Real.sqrt 2) := by
      rw [neg_div, erf_neg]; linarith
    have := erf_strictMono.injective he
    field_simp at this
    exact this
  · intro h
    rw [h, neg_div, erf_neg]; ring

/-- For a constructed model and `K > 0`, `T > 0`, the prices the code returns satisfy put-call
parity exactly when the strike equals the forward `F = S0 exp((r - q) T)`. -/
theorem put_call_parity_iff (r q sigma S0 K T : ℝ) (bs : BlackScholes ℝ)
    (hbs : BlackScholes.create r q sigma S0 = .ok bs) (hK : 0 < K) (hT : 0 < T) :
    bs.get_call_price realMath K T - bs.get_put_price realMath K T
        = S0 * Real.exp (-(q * T)) - K * Real.exp (-(r * T))
      ↔ K = S0 * Real.exp ((r - q) * T) := by
  obtain ⟨rfl, hs, hS⟩ := bs_create_ok hbs
  have hs0 : 0 < sigma := lt_trans (by norm_num) hs
  have hS0 : 0 < S0 := lt_trans (by norm_num) hS
  have hF : 0 < S0 * Real.exp ((r - q) * T) := mul_pos hS0 (Real.exp_pos _)
  have htv : 0 < sigma * Real.sqrt T := mul_pos hs0 (Real.sqrt_pos.mpr hT)
  have hdf : Real.exp (-(r * T)) ≠ 0 := (Real.exp_pos _).ne'
  have hq : S0 * Real.exp (-(q * T))
      = Real.exp (-(r * T)) * (S0 * Real.exp ((r - q) * T)) := by
    rw [mul_left_comm, ← Real.exp_add]
    congr 2
    ring
  rw [get_call_price_sub_get_put_price]
  simp only
  rw [hq]
  constructor
  · intro h
    have h1 : (S0 * Real.exp ((r - q) * T) - K) *
        (normal_cdf realMath (Real.log (S0 * Real.exp ((r - q) * T) / K) / (sigma * Real.sqrt T)
            + sigma * Real.sqrt T / 2)
          + normal_cdf realMath (Real.log (S0 * Real.exp ((r - q) * T) / K) / (sigma * Real.sqrt T)
            + sigma * Real.sqrt T / 2 - sigma * Real.sqrt T) - 1) = 0 := by
      have h2 := mul_left_cancel₀ hdf (h.trans (by ring :
        Real.exp (-(r * T)) * (S0 * Real.exp ((r - q) * T)) - K * Real.exp (-(r * T))
          = Real.exp (-(r * T)) * (S0 * Real.exp ((r - q) * T) - K)))
      linear_combination h2
    rcases mul_eq_zero.mp h1 with h3 | h3
    · linarith
    · have h4 := (normal_cdf_add_eq_one_iff _ _).mp (sub_eq_zero.mp h3)
      have h5 : Real.log (S0 * Real.exp ((r - q) * T) / K) = 0 := by
        have h6 : 2 * (Real.log (S0 * Real.exp ((r - q) * T) / K) / (sigma * Real.sqrt T)) = 0 := by
          linarith
        have h7 := (mul_eq_zero.mp h6).resolve_left (by norm_num)
        exact (div_eq_zero_iff.mp h7).resolve_right htv.ne'
      have h8 := Real.eq_one_of_pos_of_log_eq_zero (div_pos hF hK) h5
      exact ((div_eq_one_iff_eq hK.ne').mp h8).symm
  · intro h
    rw [← h]
    simp only [sub_self, zero_mul, mul_zero]
    ring

/-- The `d1` of the model `r = q = 0`, `σ = 1`, `S0 = 1` at `K = 2`, `T = 1` is negative. -/
theorem d1_example_neg : Real.log (1 / 2) + 1 / 2 < 0 := by
  have h := Real.log_two_gt_d9
  rw [one_div, Real.log_inv]
  linarith

theorem example_prices_sum_lt_one :
    normal_cdf realMath (Real.log (1 / 2) + 1 / 2)
      + normal_cdf realMath (Real.log (1 / 2) + 1 / 2 - 1) < 1 := by
  have h1 := normal_cdf_lt_half d1_example_neg
  have h2 := normal_cdf_lt_half (x := Real.log (1 / 2) + 1 / 2 - 1)
    (by have := d1_example_neg; linarith)
  linarith

/-- C1 (violated by the code). For the constructed model `r = q = 0`, `σ = 1`, `S0 = 1` and
`K = 2`, `T = 1`, put-call parity asks for `call - put = S0 e^{-qT} - K e^{-rT} = -1`, but
`get_call_price - get_put_price` is strictly larger than that. -/
theorem put_call_parity_fails :
    BlackScholes.create (0 : ℝ) 0 1 1 = .ok ⟨0, 0, 1, 1⟩ ∧
    (1 : ℝ) * Real.exp (-(0 * 1)) - 2 * Real.exp (-(0 * 1)) <
      (⟨0, 0, 1, 1⟩ : BlackScholes ℝ).get_call_price realMath 2 1
        - (⟨0, 0, 1, 1⟩ : BlackScholes ℝ).get_put_price realMath 2 1 := by
  refine ⟨bs_create_of_pos (by norm_num) (by norm_num), ?_⟩
  rw [get_call_price_sub_get_put_price]
  have h := example_prices_sum_lt_one
  norm_num
  norm_num at h
  linarith

/-- C2 (violated by the code). For the constructed model `r = q = 0`, `σ = 1`, `S0 = 1` and
`K = 2`, `T = 1`, `get_put_price` is strictly below the Black-Scholes-Merton put value
`exp(-rT) (K Φ(-d2) - F Φ(-d1))`. -/
theorem get_put_price_ne_bsm_put :
    BlackScholes.create (0 : ℝ) 0 1 1 = .ok ⟨0, 0, 1, 1⟩ ∧
    (⟨0, 0, 1, 1⟩ : BlackScholes ℝ).get_put_price realMath 2 1
      < bsm_put realMath 0 0 1 1 2 1 := by
  refine ⟨bs_create_of_pos (by norm_num) (by norm_num), ?_⟩
  rw [get_put_price_eq]
  have h := example_prices_sum_lt_one
  simp only [bsm_put, normal_cdf_neg, realMath_exp, realMath_log, realMath_sqrt]
  norm_num
  norm_num at h
  linarith

/-! ## The volatility-target recursion -/

section VT

variable {α : Type} [LinearOrderedField α]

/-- A constructed engine holds the constructor arguments and `m_dt = tenor / num_time_steps`,
and the arguments passed the six `ASSERT`s. -/
theorem vt_create_ok {sde : BlackScholes α} {lamb : α} {N : Nat}
    {sigma_target T v0 L0 : α} {vt : VolatilityTarget α}
    (h : VolatilityTarget.create sde lamb N sigma_target T v0 L0 = .ok vt) :
    vt = ⟨sde, lamb, sigma_target, T, v0, L0, N, T / (N : α)⟩ ∧
      (0 < lamb ∧ lamb < 1) ∧ 0 < sigma_target ∧ 0 < T ∧ 1 < N ∧ 1e-12 < v0 ∧ 1e-12 < L0 := by
  unfold VolatilityTarget.create at h
  split_ifs at h with h1 h2 h3 h4 h5 h6
  simp only [Except.ok.injEq] at h
  have z : (0.0 : α) = 0 := by norm_num
  have o : (1.0 : α) = 1 := by norm_num
  rw [z, o] at h1
  rw [z] at h2 h3
  exact ⟨h.symm, h1, h2, h3, h4, h5, h6⟩

theorem vt_create_of_valid {sde : BlackScholes α} {lamb : α} {N : Nat}
    {sigma_target T v0 L0 : α} (h1 : 0 < lamb ∧ lamb < 1) (h2 : 0 < sigma_target)
    (h3 : 0 < T) (h4 : 1 < N) (h5 : 1e-12 < v0) (h6 : 1e-12 < L0) :
    VolatilityTarget.create sde lamb N sigma_target T v0 L0
      = .ok ⟨sde, lamb, sigma_target, T, v0, L0, N, T / (N : α)⟩ := by
  have z : (0.0 : α) = 0 := by norm_num
  have o : (1.0 : α) = 1 := by norm_num
  simp [VolatilityTarget.create, z, o, h1.1, h1.2, h2, h3, h4, h5, h6]

theorem VolatilityTarget.vt_loop_zero (m : CMath α) (vt : VolatilityTarget α) (path : List α) :
    vt.vt_loop m path 0 = (vt.m_init_level, vt.m_init_var) := rfl

/-- One more pass of the loop is one more application of the loop body, at index `k + 1`. -/
theorem VolatilityTarget.vt_loop_succ (m : CMath α) (vt : VolatilityTarget α) (path : List α)
    (k : Nat) :
    vt.vt_loop m path (k + 1) = vt.vt_step m path (vt.vt_loop m path k) (k + 1) := by
  simp only [VolatilityTarget.vt_loop, List.range'_1_concat, List.foldl_append, List.foldl_cons,
    List.foldl_nil, Nat.add_comm 1 k]

/-- The loop state after `k` passes is `(level_k, var_k)` of the specification's recurrence,
read with the engine's own fields. -/
theorem VolatilityTarget.vt_loop_eq (m : CMath α) (vt : VolatilityTarget α) (path : List α)
    (k : Nat) :
    vt.vt_loop m path k =
      (vt_level m path vt.m_init_level vt.m_init_var vt.m_target_vol vt.m_lamb
          vt.m_sde.m_discount_rate vt.m_dt k,
        vt_var path vt.m_lamb vt.m_init_var vt.m_dt k) := by
  induction k with
  | zero => rfl
  | succ k ih =>
    have o : (1.0 : α) = 1 := by norm_num
    rw [VolatilityTarget.vt_loop_succ, ih]
    simp only [VolatilityTarget.vt_step, vt_level, vt_var, vt_ret, o, Nat.add_sub_cancel]
    refine Prod.ext rfl ?_
    simp only
    ring

/-- With a vector whose size fits `size_t`, the size test of `compute_vt_level` passes
exactly for the length `N + 1`. -/
theorem VolatilityTarget.compute_vt_level_of_length (m : CMath α) (vt : VolatilityTarget α)
    (path : List α) (hsz : path.length < SIZE_WIDTH)
    (hlen : path.length = vt.m_num_time_steps + 1) :
    vt.compute_vt_level m path = .ok (vt.vt_loop m path vt.m_num_time_steps).1 := by
  have hmod : (vt.m_num_time_steps + 1) % SIZE_WIDTH = vt.m_num_time_steps + 1 :=
    Nat.mod_eq_of_lt (hlen ▸ hsz)
  simp [VolatilityTarget.compute_vt_level, hmod, hlen]

/-- C4. For every constructed engine and every price path of length `N + 1` with non-zero
entries (a vector, so its size fits `size_t`), `compute_vt_level path` returns `level_N` of the
recurrence `level_0 = L0`, `var_0 = v0`, `ret_i = path[i]/path[i-1] - 1`,
`w_i = σ*/sqrt(var_{i-1})`, `level_i = level_{i-1} (1 + (1 - w_i) r dt + w_i ret_i)`,
`var_i = λ var_{i-1} + (1 - λ) ret_i²/dt`, with `r` the model's discount rate and `dt = T/N`. -/
theorem compute_vt_level_eq_recurrence (m : CMath α) (sde : BlackScholes α) (lamb : α) (N : Nat)
    (sigma_target T v0 L0 : α) (vt : VolatilityTarget α) (path : List α)
    (hvt : VolatilityTarget.create sde lamb N sigma_target T v0 L0 = .ok vt)
    (hsz : path.length < SIZE_WIDTH) (hlen : path.length = N + 1)
    (_hnz : ∀ x ∈ path, x ≠ 0) :
    vt.compute_vt_level m path =
      .ok (vt_level m path L0 v0 sigma_target lamb sde.m_discount_rate (T / (N : α)) N) := by
  obtain ⟨rfl, -⟩ := vt_create_ok hvt
  rw [VolatilityTarget.compute_vt_level_of_length m _ path hsz hlen,
    VolatilityTarget.vt_loop_eq]

/-- The variance sequence stays strictly positive when `0 < λ < 1`, `v0 > 0` and `dt > 0`,
whatever the path. -/
theorem vt_var_pos (path : List α) {lam v0 dt : α} (hl : 0 < lam ∧ lam < 1) (hv : 0 < v0)
    (hdt : 0 < dt) : ∀ k, 0 < vt_var path lam v0 dt k := by
  intro k
  induction k with
  | zero => exact hv
  | succ k ih =>
    rw [vt_var]
    have h1 : 0 < lam * vt_var path lam v0 dt k := mul_pos hl.1 ih
    have h2 : 0 ≤ (1 - lam) * vt_ret path (k + 1) ^ 2 / dt :=
      div_nonneg (mul_nonneg (by linarith [hl.2]) (sq_nonneg _)) hdt.le
    linarith

/-- The derived step `m_dt = T/N` of a constructed engine is strictly positive, and so is its
initial variance. -/
theorem vt_dt_pos_of_create {sde : BlackScholes α} {lamb : α} {N : Nat}
    {sigma_target T v0 L0 : α} {vt : VolatilityTarget α}
    (h : VolatilityTarget.create sde lamb N sigma_target T v0 L0 = .ok vt) :
    0 < vt.m_dt ∧ 0 < vt.m_init_var ∧ (0 < vt.m_lamb ∧ vt.m_lamb < 1) := by
  obtain ⟨rfl, hl, -, hT, hN, hv, -⟩ := vt_create_ok h
  have hN0 : (0 : α) < (N : α) := by exact_mod_cast (by omega : 0 < N)
  have hv0 : (0 : α) < v0 := lt_trans (by norm_num) hv
  exact ⟨div_pos hT hN0, hv0, hl⟩

end VT

theorem example_engine_created :
    VolatilityTarget.create (example_model : BlackScholes ℝ) 0.5 2 0.2 1 0.02 1
      = .ok example_engine :=
  vt_create_of_valid (by norm_num) (by norm_num) (by norm_num) (by norm_num)
    (by norm_num) (by norm_num)

theorem compute_vt_level_eq_recurrence_witness :
    ([1, 2, 1] : List ℝ).length = 2 + 1 ∧ (∀ x ∈ ([1, 2, 1] : List ℝ), x ≠ 0) ∧
      (example_engine : VolatilityTarget ℝ).compute_vt_level realMath [1, 2, 1] =
        .ok (vt_level realMath [1, 2, 1] 1 0.02 0.2 0.5
          (example_model : BlackScholes ℝ).m_discount_rate (1 / ((2 : Nat) : ℝ)) 2) :=
  ⟨rfl, by simp,
    compute_vt_level_eq_recurrence realMath example_model 0.5 2 0.2 1 0.02 1 example_engine
      [1, 2, 1] example_engine_created (by simp [SIZE_WIDTH]) rfl (by simp)⟩

/-- In exact arithmetic, for every constructed engine and every path of length `N + 1` with
non-zero entries, the variance estimate `var` held by the loop of `compute_vt_level` after `k`
passes is strictly positive for every `k = 0, ..., N`, and `sqrt(var)` is not zero. In double
arithmetic this fails: see `compute_vt_level_var_underflows`. -/
theorem compute_vt_level_var_pos (sde : BlackScholes ℝ) (lamb : ℝ) (N : Nat)
    (sigma_target T v0 L0 : ℝ) (vt : VolatilityTarget ℝ) (path : List ℝ)
    (hvt : VolatilityTarget.create sde lamb N sigma_target T v0 L0 = .ok vt)
    (_hlen : path.length = N + 1) (_hnz : ∀ x ∈ path, x ≠ 0) (k : Nat) (_hk : k ≤ N) :
    0 < (vt.vt_loop realMath path k).2 ∧
      realMath.sqrt (vt.vt_loop realMath path k).2 ≠ 0 := by
  obtain ⟨hdt, hv, hl⟩ := vt_dt_pos_of_create hvt
  rw [VolatilityTarget.vt_loop_eq]
  have hpos := vt_var_pos path hl hv hdt k
  exact ⟨hpos, (Real.sqrt_pos.mpr hpos).ne'⟩

theorem compute_vt_level_var_pos_witness :
    ([1, 2, 1] : List ℝ).length = 2 + 1 ∧ (∀ x ∈ ([1, 2, 1] : List ℝ), x ≠ 0) ∧
      0 < ((example_engine : VolatilityTarget ℝ).vt_loop realMath [1, 2, 1] 2).2 ∧
      realMath.sqrt ((example_engine : VolatilityTarget ℝ).vt_loop realMath [1, 2, 1] 2).2 ≠ 0 :=
  ⟨rfl, by simp,
    compute_vt_level_var_pos example_model 0.5 2 0.2 1 0.02 1 example_engine [1, 2, 1]
      example_engine_created rfl (by simp) 2 (le_refl 2)⟩

/-! ## Path simulation -/

section Path

variable {α : Type} [LinearOrderedField α]

/-- Dropping the first increment and shock amounts to starting one step later. -/
theorem gbm_level_cons (m : CMath α) (r q sigma S0 dt z : α) (dts zs : List α) (i : Nat) :
    gbm_level m r q sigma S0 (dt :: dts) (z :: zs) (i + 1) =
      gbm_level m r q sigma
        (S0 * m.exp ((r - q - sigma ^ 2 / 2) * dt + sigma * m.sqrt dt * z)) dts zs i := by
  induction i with
  | zero => simp [gbm_level]
  | succ i ih =>
    rw [gbm_level, ih]
    simp [gbm_level]

/-- The loop of `populate_path`, started with level `lev` on suffixes of equal length,
appends the levels `1, ..., n` of the recurrence started at `lev`. -/
theorem BlackScholes.populate_path_loop_eq (m : CMath α) (bs : BlackScholes α) :
    ∀ (dts zs : List α) (lev : α) (acc : List α), dts.length = zs.length →
      BlackScholes.populate_path_loop m bs (bs.m_discount_rate - bs.m_repo_rate) dts zs lev acc =
        acc ++ (List.range dts.length).map fun i =>
          gbm_level m bs.m_discount_rate bs.m_repo_rate bs.m_volatility lev dts zs (i + 1) := by
  intro dts
  induction dts with
  | nil =>
    intro zs lev acc h
    cases zs with
    | nil => simp [BlackScholes.populate_path_loop]
    | cons z zs => simp at h
  | cons dt dts ih =>
    intro zs lev acc h
    cases zs with
    | nil => simp at h
    | cons z zs =>
      have h' : dts.length = zs.length := by simpa using h
      have half : (0.5 : α) = 1 / 2 := by norm_num
      have hstep : (bs.m_discount_rate - bs.m_repo_rate - 0.5 * bs.m_volatility * bs.m_volatility)
          = bs.m_discount_rate - bs.m_repo_rate - bs.m_volatility ^ 2 / 2 := by
        rw [half]; ring
      have hR : (List.range (dt :: dts).length).map (fun i =>
          gbm_level m bs.m_discount_rate bs.m_repo_rate bs.m_volatility lev (dt :: dts) (z :: zs)
            (i + 1)) =
          (lev * m.exp ((bs.m_discount_rate - bs.m_repo_rate - bs.m_volatility ^ 2 / 2) * dt
              + bs.m_volatility * m.sqrt dt * z)) ::
            (List.range dts.length).map (fun i =>
              gbm_level m bs.m_discount_rate bs.m_repo_rate bs.m_volatility
                (lev * m.exp ((bs.m_discount_rate - bs.m_repo_rate - bs.m_volatility ^ 2 / 2) * dt
                  + bs.m_volatility * m.sqrt dt * z)) dts zs (i + 1)) := by
        rw [List.length_cons, List.range_succ_eq_map, List.map_cons, List.map_map]
        congr 1
        apply List.map_congr_left
        intro i _
        simp only [Function.comp_apply, Nat.succ_eq_add_one]
        rw [gbm_level_cons]
      rw [BlackScholes.populate_path_loop, ih zs _ _ h', hstep, hR]
      simp only [List.append_assoc, List.singleton_append]

/-- With inputs of equal length, `populate_path` succeeds and the output vector is replaced by
the levels `0, ..., n` of the recurrence, read with the model's own fields. -/
theorem BlackScholes.populate_path_of_length (m : CMath α) (bs : BlackScholes α)
    (old dtimes shocks : List α) (hlen : dtimes.length = shocks.length) :
    bs.populate_path m old dtimes shocks =
      ((List.range (dtimes.length + 1)).map
        (gbm_level m bs.m_discount_rate bs.m_repo_rate bs.m_volatility bs.m_init_level
          dtimes shocks), .ok ()) := by
  unfold BlackScholes.populate_path
  rw [if_neg (not_not.mpr hlen)]
  simp only [List.take_zero, List.nil_append]
  rw [BlackScholes.populate_path_loop_eq m _ dtimes shocks _ _ hlen]
  simp only [List.range_succ_eq_map, List.map_cons, List.map_map, List.singleton_append]
  rfl

/-- C7. For every constructed model and all equal-length `dtimes` and `shocks` (`n` entries
each), `populate_path` succeeds and leaves in the output vector exactly the `n + 1` levels
`S_0, ..., S_n` with `S_0 = S0` and `S_i = S_{i-1} exp((r - q - σ²/2) dt_i + σ sqrt(dt_i) z_i)`,
whatever the vector held before (`[S0]` for `n = 0`). -/
theorem populate_path_eq_gbm (m : CMath α) (r q sigma S0 : α) (bs : BlackScholes α)
    (old dtimes shocks : List α)
    (hbs : BlackScholes.create r q sigma S0 = .ok bs) (hlen : dtimes.length = shocks.length) :
    bs.populate_path m old dtimes shocks =
      ((List.range (dtimes.length + 1)).map (gbm_level m r q sigma S0 dtimes shocks), .ok ()) := by
  obtain ⟨rfl, -, -⟩ := bs_create_ok hbs
  exact BlackScholes.populate_path_of_length m _ old dtimes shocks hlen

end Path

theorem populate_path_eq_gbm_witness :
    BlackScholes.create (0.05 : ℝ) 0.02 0.5 1 = .ok example_model ∧
      ([0.5, 0.5] : List ℝ).length = ([1, -1] : List ℝ).length ∧
      (example_model : BlackScholes ℝ).populate_path realMath [7] [0.5, 0.5] [1, -1] =
        ((List.range (([0.5, 0.5] : List ℝ).length + 1)).map
          (gbm_level realMath 0.05 0.02 0.5 1 [0.5, 0.5] [1, -1]), .ok ()) :=
  have h : BlackScholes.create (0.05 : ℝ) 0.02 0.5 1 = .ok example_model :=
    bs_create_of_pos (by norm_num) (by norm_num)
  ⟨h, rfl, populate_path_eq_gbm realMath 0.05 0.02 0.5 1 example_model [7] [0.5, 0.5] [1, -1] h rfl⟩

/-- With all shocks zero the levels of the recurrence follow the drift:
`S_i = S0 exp((r - q - σ²/2) (dt_1 + ... + dt_i))`. -/
theorem gbm_level_zero_shocks (r q sigma S0 : ℝ) (dtimes : List ℝ) :
    ∀ i, i ≤ dtimes.length →
      gbm_level realMath r q sigma S0 dtimes (List.replicate dtimes.length 0) i =
        S0 * Real.exp ((r - q - sigma ^ 2 / 2) * (dtimes.take i).sum) := by
  intro i
  induction i with
  | zero => intro _; simp [gbm_level]
  | succ i ih =>
    intro hi
    have hi' : i < dtimes.length := hi
    rw [gbm_level, ih (by omega)]
    have hz : (List.replicate dtimes.length (0 : ℝ)).getD i 0 = 0 := by
      simp [List.getElem?_replicate, hi']
    have hsum : (dtimes.take (i + 1)).sum = (dtimes.take i).sum + dtimes.getD i 0 := by
      rw [List.sum_take_succ dtimes i hi', List.getD_eq_getElem dtimes 0 hi']
    rw [hz, hsum, realMath_exp, mul_zero, add_zero, mul_assoc, ← Real.exp_add]
    ring_nf

/-- C8. For every constructed model and every sequence of positive time increments
`dt_1..dt_n`, `populate_path` with all shocks zero succeeds with a path whose `i`-th entry is
`S0 exp((r - q - σ²/2) (dt_1 + ... + dt_i))`, for every `i = 0..n`. -/
theorem populate_path_zero_shocks (r q sigma S0 : ℝ) (bs : BlackScholes ℝ)
    (old dtimes : List ℝ)
    (hbs : BlackScholes.create r q sigma S0 = .ok bs) (_hpos : ∀ dt ∈ dtimes, 0 < dt)
    (i : Nat) (hi : i ≤ dtimes.length) :
    (bs.populate_path realMath old dtimes (List.replicate dtimes.length 0)).2 = .ok () ∧
    (bs.populate_path realMath old dtimes (List.replicate dtimes.length 0)).1.length
        = dtimes.length + 1 ∧
    (bs.populate_path realMath old dtimes (List.replicate dtimes.length 0)).1.getD i 0 =
      S0 * Real.exp ((r - q - sigma ^ 2 / 2) * (dtimes.take i).sum) := by
  obtain ⟨rfl, -, -⟩ := bs_create_ok hbs
  rw [BlackScholes.populate_path_of_length realMath _ old dtimes _ (by simp)]
  refine ⟨rfl, by simp, ?_⟩
  have hi' : i < (List.range (dtimes.length + 1)).length := by simp; omega
  simp only
  rw [List.getD_eq_getElem _ _ (by simpa using hi'), List.getElem_map, List.getElem_range,
    gbm_level_zero_shocks r q sigma S0 dtimes i hi]

theorem populate_path_zero_shocks_witness :
    BlackScholes.create (0.05 : ℝ) 0.02 0.5 1 = .ok example_model ∧
      (∀ dt ∈ ([0.5, 0.25] : List ℝ), 0 < dt) ∧
      ((example_model : BlackScholes ℝ).populate_path realMath [7] [0.5, 0.25]
        (List.replicate ([0.5, 0.25] : List ℝ).length 0)).1.getD 2 0 =
        1 * Real.exp ((0.05 - 0.02 - 0.5 ^ 2 / 2) * (([0.5, 0.25] : List ℝ).take 2).sum) :=
  have h : BlackScholes.create (0.05 : ℝ) 0.02 0.5 1 = .ok example_model :=
    bs_create_of_pos (by norm_num) (by norm_num)
  have hp : ∀ dt ∈ ([0.5, 0.25] : List ℝ), 0 < dt := by
    intro dt hdt
    simp only [List.mem_cons, List.mem_singleton, List.not_mem_nil, or_false] at hdt
    rcases hdt with rfl | rfl <;> norm_num
  ⟨h, hp,
    (populate_path_zero_shocks 0.05 0.02 0.5 1 example_model [7] [0.5, 0.25] h hp 2
      (by simp)).2.2⟩

/-! ## Quadrature -/

section Quadrature

variable {α : Type} [LinearOrderedField α]

/-- The loop of `integrate` from the state reached after `k` passes (`x0 = a + k dx`,
`x1 = x0 + dx`), when `b = a + N dx` with `dx > 0`: it makes `j = N - 1 - k` further passes,
adding the midpoint values of the subintervals `k, ..., N - 2`, and stops at `x1 = b`: the
subinterval `N - 1` is never visited. -/
theorem integrate_loop_eq (f : α → α) (a b dx : α) (N : Nat) (hb : b = a + (N : α) * dx)
    (hdx : 0 < dx) :
    ∀ (j k fuel : Nat) (x0 x1 s : α), k + j + 1 = N → j + 1 ≤ fuel →
      x0 = a + (k : α) * dx → x1 = x0 + dx →
      integrate_loop f dx b fuel x0 x1 s =
        some (s + ∑ i in Finset.range j, f (a + (((k + i : Nat) : α) + 1 / 2) * dx)) := by
  intro j
  induction j with
  | zero =>
    intro k fuel x0 x1 s hk hfuel hx0 hx1
    obtain ⟨fuel, rfl⟩ : ∃ n, fuel = n + 1 := ⟨fuel - 1, by omega⟩
    have hx1b : x1 = b := by
      rw [hx1, hx0, hb, ← hk]; push_cast; ring
    simp [integrate_loop, hx1b]
  | succ j ih =>
    intro k fuel x0 x1 s hk hfuel hx0 hx1
    obtain ⟨fuel, rfl⟩ : ∃ n, fuel = n + 1 := ⟨fuel - 1, by omega⟩
    have hlt : x1 < b := by
      have hkN : ((k + 1 : Nat) : α) < (N : α) := by exact_mod_cast (by omega : k + 1 < N)
      have hmul := mul_lt_mul_of_pos_right hkN hdx
      rw [hx1, hx0, hb]
      push_cast at hmul
      linarith
    have hmid : (0.5 : α) * (x0 + x1) = a + (((k + 0 : Nat) : α) + 1 / 2) * dx := by
      rw [hx1, hx0]; norm_num; ring
    rw [integrate_loop, if_pos hlt]
    simp only
    rw [ih (k + 1) fuel (x0 + dx) (x1 + dx) _ (by omega) (by omega)
      (by rw [hx0]; push_cast; ring) (by rw [hx1]), hmid, Finset.sum_range_succ', add_assoc]
    congr 2
    rw [add_comm]
    congr 1
    apply Finset.sum_congr rfl
    intro i _
    have hidx : k + 1 + i = k + (i + 1) := by omega
    rw [hidx]

/-- What `integrate` returns in exact arithmetic: for `a < b`, `N ≥ 1` and at least `N` tests
of the loop condition allowed, the value is `dx Σ_{i < N-1} f(a + (i + 1/2) dx)`: the midpoint
sum over the first `N - 1` of the `N` subintervals. -/
theorem integrate_eq (f : α → α) (a b : α) (N fuel : Nat) (hab : a < b) (hN : 1 ≤ N)
    (hfuel : N ≤ fuel) :
    integrate fuel f a b N =
      some (.ok ((∑ i in Finset.range (N - 1), f (a + ((i : α) + 1 / 2) * ((b - a) / (N : α))))
        * ((b - a) / (N : α)))) := by
  have hN0 : (0 : α) < (N : α) := by exact_mod_cast hN
  have hdx : 0 < (b - a) / (N : α) := div_pos (sub_pos.mpr hab) hN0
  have hb : b = a + (N : α) * ((b - a) / (N : α)) := by
    field_simp
  have hloop := integrate_loop_eq f a b _ N hb hdx (N - 1) 0 fuel a (a + (b - a) / (N : α)) 0.0
    (by omega) (by omega) (by simp) rfl
  have hN' : ¬ ¬ (N > 0) := not_not.mpr hN
  unfold integrate
  rw [if_neg (not_not.mpr hab), if_neg hN']
  simp only
  rw [hloop]
  have z : (0.0 : α) = 0 := by norm_num
  simp only [z, zero_add, Option.map_some']

/-- In exact arithmetic `integrate` of the constant function `1` over `[0, 10]` returns
`10 - 10/N` for every `N ≥ 1`: one subinterval's worth short of `10`. -/
theorem integrate_const_one (N fuel : Nat) (hN : 1 ≤ N) (hfuel : N ≤ fuel) :
    integrate fuel (fun _ : α => 1) 0 10 N = some (.ok (10 - 10 / (N : α))) := by
  have hN0 : (N : α) ≠ 0 := by exact_mod_cast (by omega : N ≠ 0)
  rw [integrate_eq _ _ _ _ _ (by norm_num) hN hfuel]
  simp only [Finset.sum_const, Finset.card_range, nsmul_eq_mul, mul_one, sub_zero,
    Nat.cast_sub hN, Nat.cast_one]
  congr 2
  field_simp
  ring

/-- C10 (violated by the code). With `N = 1`, `integrate` of the constant function `1` over
`[0, 10]` returns `0`, not `10`: `x1` starts at `b`, so the loop body never runs (whatever
the bound on the number of loop tests). -/
theorem integrate_const_one_N1 (fuel : Nat) :
    integrate (fuel + 1) (fun _ : ℝ => 1) 0 10 1 = some (.ok 0) := by
  rw [integrate_eq _ _ _ _ _ (by norm_num) (le_refl 1) (by omega)]
  simp

/-- C9 (violated by the code). For `f(x) = x` on `[0, 1]` with `N = 2`, `integrate` returns
`0.125` (the midpoint term of `[0, 0.5]` alone) whereas the composite midpoint sum over the two
subintervals is `0.5`. -/
theorem integrate_ne_midpoint_sum (fuel : Nat) :
    integrate (fuel + 2) (fun x : ℝ => x) 0 1 2 = some (.ok 0.125) ∧
      midpoint_sum (fun x : ℝ => x) 0 1 2 = 0.5 := by
  constructor
  · rw [integrate_eq _ _ _ _ _ (by norm_num) (by norm_num) (by omega)]
    norm_num
  · simp only [midpoint_sum, Finset.sum_range_succ, Finset.sum_range_zero]
    norm_num

end Quadrature

/-! ## The q-Pochhammer symbol -/

section QPochhammer

variable {α : Type} [LinearOrderedField α]

/-- After `k` passes the loop of `q_pochhammer` holds the sum of the logarithms of the first
`k` factors and the power `q^k`. -/
theorem q_pochhammer_loop_eq (m : CMath α) (a q : α) (k : Nat) :
    q_pochhammer_loop m a q k = (∑ i in Finset.range k, m.log (1 - a * q ^ i), q ^ k) := by
  induction k with
  | zero =>
    have z : (0.0 : α) = 0 := by norm_num
    have o : (1.0 : α) = 1 := by norm_num
    simp [q_pochhammer_loop, z, o]
  | succ k ih =>
    have o : (1.0 : α) = 1 := by norm_num
    rw [q_pochhammer_loop, ih]
    simp only [o, Finset.sum_range_succ, pow_succ]

/-- An explicitly supplied `n ≥ 0` is the number of passes. -/
theorem q_pochhammer_n_to_use_explicit [FloorRing α] (m : CMath α) (a q : α) (n : Nat) :
    (q_pochhammer_n_to_use m a q (n : Int)).toNat = n := by
  have h : ¬ ((n : Int) < 0) := by omega
  simp [q_pochhammer_n_to_use, h]

/-- C20. For every `a` and every `n`, `q_pochhammer a q n` throws if and only if `|q| ≥ 1`;
the test comes first, so `q_pochhammer(0, 1, n)` throws although `a` is zero. -/
theorem q_pochhammer_throws_iff [FloorRing α] (m : CMath α) (a q : α) (n : Int) :
    ((∃ msg, q_pochhammer m a q n = .error msg) ↔ 1 ≤ |q|) ∧
      q_pochhammer m 0 1 n = .error "abs(q) < 1 must be true" := by
  constructor
  · unfold q_pochhammer
    by_cases hq : |q| < 1
    · have hq' : ¬ (1 ≤ |q|) := not_le.mpr hq
      rw [if_neg (not_not.mpr hq)]
      split_ifs <;> simp [hq']
    · rw [if_pos hq]
      simp [not_lt.mp hq]
  · simp [q_pochhammer]

end QPochhammer

/-- With positive factors, the exponential of the summed logarithms is the product. -/
theorem exp_sum_log_eq_prod (f : Nat → ℝ) (n : Nat) (hpos : ∀ k, k < n → 0 < f k) :
    Real.exp (∑ k in Finset.range n, Real.log (f k)) = ∏ k in Finset.range n, f k := by
  rw [Real.exp_sum]
  apply Finset.prod_congr rfl
  intro k hk
  exact Real.exp_log (hpos k (Finset.mem_range.mp hk))

/-- C11 (as amended). For every `q` with `|q| < 1`, every explicitly supplied `n ≥ 0` and every
`a` with `|a| ≥ 1e-12` whose factors `1 - a q^k`, `k < n`, are all positive,
`q_pochhammer a q n` returns the finite product `∏_{k<n} (1 - a q^k)`. -/
theorem q_pochhammer_eq_prod (a q : ℝ) (n : Nat) (hq : |q| < 1) (ha : 1e-12 ≤ |a|)
    (hpos : ∀ k, k < n → 0 < 1 - a * q ^ k) :
    q_pochhammer realMath a q (n : Int) = .ok (∏ k in Finset.range n, (1 - a * q ^ k)) := by
  unfold q_pochhammer
  rw [if_neg (not_not.mpr hq), if_neg (not_lt.mpr ha)]
  simp only [q_pochhammer_n_to_use_explicit, q_pochhammer_loop_eq, realMath_exp, realMath_log]
  rw [exp_sum_log_eq_prod _ n hpos]

theorem q_pochhammer_eq_prod_witness :
    |(0.5 : ℝ)| < 1 ∧ (1e-12 : ℝ) ≤ |(-1 : ℝ)| ∧
      q_pochhammer realMath (-1) 0.5 ((2 : Nat) : Int)
        = .ok (∏ k in Finset.range 2, (1 - (-1 : ℝ) * 0.5 ^ k)) :=
  have hq : |(0.5 : ℝ)| < 1 := by rw [abs_of_pos (by norm_num)]; norm_num
  have ha : (1e-12 : ℝ) ≤ |(-1 : ℝ)| := by rw [abs_neg, abs_one]; norm_num
  ⟨hq, ha, q_pochhammer_eq_prod (-1) 0.5 2 hq ha (by
    intro k _
    have hk : (0 : ℝ) < 0.5 ^ k := pow_pos (by norm_num) k
    linarith)⟩

/-- C11 (as stated, refuted). With `a = 1e-13`, `q = 0.5`, `n = 1` the shortcut for `|a| < 1e-12`
returns `1`, while the product is `1 - 1e-13`; and with `a = 2`, `q = 0.5`, `n = 1` the value
returned is not the product `1 - 2 = -1` (the exponential of a sum is never negative). -/
theorem q_pochhammer_ne_prod :
    (q_pochhammer realMath 1e-13 0.5 1 = .ok 1 ∧
      ∏ k in Finset.range 1, (1 - (1e-13 : ℝ) * 0.5 ^ k) ≠ 1) ∧
    q_pochhammer realMath 2 0.5 1 ≠ .ok (∏ k in Finset.range 1, (1 - (2 : ℝ) * 0.5 ^ k)) := by
  have hq : |(0.5 : ℝ)| < 1 := by rw [abs_of_pos (by norm_num)]; norm_num
  refine ⟨⟨?_, ?_⟩, ?_⟩
  · have ha : |(1e-13 : ℝ)| < 1e-12 := by rw [abs_of_pos (by norm_num)]; norm_num
    unfold q_pochhammer
    rw [if_neg (not_not.mpr hq), if_pos ha]
    norm_num
  · norm_num
  · have ha : ¬ (|(2 : ℝ)| < 1e-12) := by rw [abs_of_pos (by norm_num)]; norm_num
    unfold q_pochhammer
    rw [if_neg (not_not.mpr hq), if_neg ha]
    simp only [realMath_exp, Finset.prod_range_one, pow_zero, mul_one]
    intro h
    have h1 := Except.ok.inj h
    have h2 := Real.exp_pos (q_pochhammer_loop realMath 2 0.5
      (q_pochhammer_n_to_use realMath 2 0.5 1).toNat).1
    rw [h1] at h2
    norm_num at h2

/-- C12. For every `q` with `|q| < 1`: `q_pochhammer a q 0` returns exactly `1` for every `a`,
and `q_pochhammer a q n` returns exactly `1` for every `n` (supplied or not) when
`|a| < 1e-12`. -/
theorem q_pochhammer_degenerate (a q : ℝ) (n : Int) (hq : |q| < 1) :
    q_pochhammer realMath a q 0 = .ok 1 ∧
      (|a| < 1e-12 → q_pochhammer realMath a q n = .ok 1) := by
  have o : (1.0 : ℝ) = 1 := by norm_num
  constructor
  · unfold q_pochhammer
    rw [if_neg (not_not.mpr hq)]
    split_ifs
    · rw [o]
    · have h0 := q_pochhammer_n_to_use_explicit realMath a q 0
      simp only [Nat.cast_zero] at h0
      simp only [h0, q_pochhammer_loop_eq, realMath_exp, Finset.sum_range_zero, Real.exp_zero]
  · intro ha
    unfold q_pochhammer
    rw [if_neg (not_not.mpr hq), if_pos ha, o]

theorem q_pochhammer_degenerate_witness :
    |(0.5 : ℝ)| < 1 ∧ q_pochhammer realMath 3 0.5 0 = .ok 1 ∧
      |(0 : ℝ)| < 1e-12 ∧ q_pochhammer realMath 0 0.5 (-1) = .ok 1 :=
  have hq : |(0.5 : ℝ)| < 1 := by rw [abs_of_pos (by norm_num)]; norm_num
  have ha : |(0 : ℝ)| < 1e-12 := by rw [abs_zero]; norm_num
  ⟨hq, (q_pochhammer_degenerate 3 0.5 (-1) hq).1, ha,
    (q_pochhammer_degenerate 0 0.5 (-1) hq).2 ha⟩

/-- The automatic count for `0 < |q| < 1` and `a ≠ 0`: an integer `z` satisfies
`|q|^z ≤ 0.5e-8 (1 - |q|)/|a|` exactly when it is at least `n_to_use`, so `n_to_use` is the
smallest such integer. -/
theorem q_pochhammer_n_to_use_least (a q : ℝ) (n : Int) (hn : n < 0) (hq0 : 0 < |q|)
    (hq1 : |q| < 1) (ha : a ≠ 0) (z : Int) :
    |q| ^ z ≤ 0.5 * 1e-8 * (1 - |q|) / |a| ↔ q_pochhammer_n_to_use realMath a q n ≤ z := by
  have hc : 0 < 0.5 * 1e-8 * (1 - |q|) / |a| :=
    div_pos (mul_pos (by norm_num) (by linarith)) (abs_pos.mpr ha)
  have hlog : Real.log |q| < 0 := Real.log_neg hq0 hq1
  have o : (1.0 : ℝ) = 1 := by norm_num
  simp only [q_pochhammer_n_to_use, hn, if_true, realMath_log, o]
  rw [Int.ceil_le, div_le_iff_of_neg hlog, ← Real.log_zpow,
    Real.log_le_log_iff (zpow_pos hq0 z) hc]

/-- The truncation bound for `0 < |q| < 1` and `a ≠ 0`: with `m = max(n_to_use, 0)` factors
multiplied, `|a| |q|^m ≤ 0.5e-8 (1 - |q|)`. -/
theorem q_pochhammer_truncation_bound (a q : ℝ) (n : Int) (hn : n < 0) (hq0 : 0 < |q|)
    (hq1 : |q| < 1) (ha : a ≠ 0) :
    |a| * |q| ^ (q_pochhammer_n_to_use realMath a q n).toNat ≤ 0.5 * 1e-8 * (1 - |q|) := by
  have hle := (q_pochhammer_n_to_use_least a q n hn hq0 hq1 ha
    ((q_pochhammer_n_to_use realMath a q n).toNat : Int)).mpr (Int.self_le_toNat _)
  rw [zpow_natCast, le_div_iff₀ (abs_pos.mpr ha)] at hle
  linarith

/-- C13 (violated by the code). For `a = 1`, `q = 0` and `n` not supplied, the code settles
on `0` passes and returns `1`, although `|q|^0 = 1` is not `≤ 0.5e-8 (1 - |q|)/|a|` and the
smallest exponent that is, is `1`: `nd` is a quotient by `log |q| = log 0`. -/
theorem q_pochhammer_auto_count_q_zero :
    q_pochhammer_n_to_use realMath 1 0 (-1) = 0 ∧
      q_pochhammer realMath 1 0 (-1) = .ok 1 ∧
      ¬ (|(0 : ℝ)| ^ 0 ≤ 0.5 * 1e-8 * (1 - |(0 : ℝ)|) / |(1 : ℝ)|) ∧
      |(0 : ℝ)| ^ 1 ≤ 0.5 * 1e-8 * (1 - |(0 : ℝ)|) / |(1 : ℝ)| := by
  have hn : q_pochhammer_n_to_use realMath 1 0 (-1) = 0 := by
    simp [q_pochhammer_n_to_use, realMath_log]
  refine ⟨hn, ?_, by norm_num, by norm_num⟩
  have hq : |(0 : ℝ)| < 1 := by rw [abs_zero]; norm_num
  have ha : ¬ (|(1 : ℝ)| < 1e-12) := by rw [abs_one]; norm_num
  unfold q_pochhammer
  rw [if_neg (not_not.mpr hq), if_neg ha]
  simp only [hn, Int.toNat_zero, q_pochhammer_loop_eq, realMath_exp, Finset.sum_range_zero,
    Real.exp_zero]

/-- C14 (violated by the code). For `a = -4`, `q = 0` and `n` not supplied, `m = 0` factors are
multiplied and `1` is returned, but `|a| |q|^m = 4` exceeds `0.5e-8 (1 - |q|)` and the omitted
factor `1 - a q^0 = 5` is not within `0.5e-8` of `1`. -/
theorem q_pochhammer_truncation_q_zero :
    (q_pochhammer_n_to_use realMath (-4) 0 (-1)).toNat = 0 ∧
      q_pochhammer realMath (-4) 0 (-1) = .ok 1 ∧
      ¬ (|(-4 : ℝ)| * |(0 : ℝ)| ^ 0 ≤ 0.5 * 1e-8 * (1 - |(0 : ℝ)|)) ∧
      ¬ (|(1 - (-4 : ℝ) * 0 ^ 0) - 1| ≤ 0.5 * 1e-8) := by
  have hn : q_pochhammer_n_to_use realMath (-4) 0 (-1) = 0 := by
    simp [q_pochhammer_n_to_use, realMath_log]
  have h4 : |(-4 : ℝ)| = 4 := by rw [abs_neg]; exact abs_of_pos (by norm_num)
  refine ⟨by rw [hn]; rfl, ?_, by rw [h4]; norm_num, by norm_num⟩
  have hq : |(0 : ℝ)| < 1 := by rw [abs_zero]; norm_num
  have ha : ¬ (|(-4 : ℝ)| < 1e-12) := by rw [h4]; norm_num
  unfold q_pochhammer
  rw [if_neg (not_not.mpr hq), if_neg ha]
  simp only [hn, Int.toNat_zero, q_pochhammer_loop_eq, realMath_exp, Finset.sum_range_zero,
    Real.exp_zero]

/-! ## Failure of `integrate` -/

section QuadratureFailure

variable {α : Type} [LinearOrderedField α]

/-- Past the two `ASSERT`s, `integrate` never produces an error. -/
theorem integrate_ne_error_of_valid (fuel : Nat) (f : α → α) (a b : α) (N : Nat) (hab : a < b)
    (hN : 0 < N) (msg : String) : integrate fuel f a b N ≠ some (.error msg) := by
  have hN' : ¬ ¬ (N > 0) := not_not.mpr hN
  unfold integrate
  rw [if_neg (not_not.mpr hab), if_neg hN']
  simp only
  cases integrate_loop f ((b - a) / (N : α)) b fuel a (a + (b - a) / (N : α)) 0.0 <;> simp

/-- When `a ≥ b` or `N = 0`, `integrate` throws whatever the integrand and the bound on loop
tests are. -/
theorem integrate_error_of_invalid (fuel : Nat) (f : α → α) (a b : α) (N : Nat)
    (h : b ≤ a ∨ N = 0) :
    integrate fuel f a b N = some (.error "a < b must be true") ∨
      integrate fuel f a b N = some (.error "N > 0 must be true") := by
  unfold integrate
  by_cases hab : a < b
  · rcases h with h | h
    · exact absurd hab (not_lt.mpr h)
    · right
      have hN' : ¬ (N > 0) := by omega
      rw [if_neg (not_not.mpr hab), if_pos hN']
  · left
    rw [if_pos hab]

/-- In exact arithmetic the call `integrate f a b N` throws if and only if `a ≥ b` or `N = 0`;
in that case the outcome is the same for every integrand and needs no loop test (the check
comes before any evaluation of `f`); and for `a < b`, `N ≥ 1` the call returns a value (the
loop ends within `N` tests). In double arithmetic the first part stands
(`integrate_fl_throws_iff`) and the last one fails: see `integrate_never_returns`. -/
theorem integrate_throws_iff (f : α → α) (a b : α) (N : Nat) :
    (∀ fuel, (∃ msg, integrate fuel f a b N = some (.error msg)) ↔ (b ≤ a ∨ N = 0)) ∧
    ((b ≤ a ∨ N = 0) → ∀ (g : α → α) (fuel : Nat),
      integrate fuel f a b N = integrate 0 g a b N) ∧
    (a < b → 1 ≤ N → ∃ v, ∀ fuel, N ≤ fuel → integrate fuel f a b N = some (.ok v)) := by
  refine ⟨?_, ?_, ?_⟩
  · intro fuel
    constructor
    · rintro ⟨msg, hmsg⟩
      by_contra hcon
      push_neg at hcon
      exact integrate_ne_error_of_valid fuel f a b N hcon.1 (Nat.pos_of_ne_zero hcon.2) msg hmsg
    · intro h
      rcases integrate_error_of_invalid fuel f a b N h with h1 | h1
      · exact ⟨_, h1⟩
      · exact ⟨_, h1⟩
  · intro h g fuel
    unfold integrate
    by_cases hab : a < b
    · rcases h with h | h
      · exact absurd hab (not_lt.mpr h)
      · have hN' : ¬ (N > 0) := by omega
        rw [if_neg (not_not.mpr hab), if_pos hN', if_neg (not_not.mpr hab), if_pos hN']
    · rw [if_pos hab, if_pos hab]
  · intro hab hN
    exact ⟨_, fun fuel hfuel => integrate_eq f a b N fuel hab hN hfuel⟩

end QuadratureFailure

/-! ## The Gaussian sampler -/

section Sampler

variable {α : Type}

theorem draw_state_succ_left (L : StdRandom α) (g : StandardNormalGenerator L) (i : Nat) :
    draw_state L g (i + 1) =
      draw_state L { g with m_dist := (L.draw g.m_dist g.m_rng).2.1,
                            m_rng := (L.draw g.m_dist g.m_rng).2.2 } i := by
  induction i with
  | zero => rfl
  | succ i ih =>
    rw [draw_state, ih]
    rfl

theorem draw_value_succ_left (L : StdRandom α) (g : StandardNormalGenerator L) (i : Nat) :
    draw_value L g (i + 1) =
      draw_value L { g with m_dist := (L.draw g.m_dist g.m_rng).2.1,
                            m_rng := (L.draw g.m_dist g.m_rng).2.2 } i := by
  unfold draw_value
  rw [draw_state_succ_left]

/-- Drawing `a` variates and then `b` more is drawing `a + b`. -/
theorem draw_state_add (L : StdRandom α) (g : StandardNormalGenerator L) (a b : Nat) :
    draw_state L (draw_state L g a) b = draw_state L g (a + b) := by
  induction b with
  | zero => rfl
  | succ b ih =>
    rw [← Nat.add_assoc, draw_state, draw_state, ih]

theorem draw_value_add (L : StdRandom α) (g : StandardNormalGenerator L) (a b : Nat) :
    draw_value L (draw_state L g a) b = draw_value L g (a + b) := by
  unfold draw_value
  rw [draw_state_add]

/-- The loop of `populate_standard_normals` with `k` passes left appends the next `k` variates
and leaves the generator `k` draws further. -/
theorem StandardNormalGenerator.populate_loop_eq (L : StdRandom α) :
    ∀ (k : Nat) (g : StandardNormalGenerator L) (acc : List α),
      StandardNormalGenerator.populate_loop k g acc =
        (acc ++ (List.range k).map (draw_value L g), draw_state L g k) := by
  intro k
  induction k with
  | zero => intro g acc; simp [StandardNormalGenerator.populate_loop, draw_state]
  | succ k ih =>
    intro g acc
    rw [StandardNormalGenerator.populate_loop]
    rw [ih, draw_state_succ_left, List.range_succ_eq_map, List.map_cons, List.map_map,
      List.append_assoc, List.singleton_append]
    congr 3
    apply List.map_congr_left
    intro i _
    exact (draw_value_succ_left L g i).symm

/-- What `populate_standard_normals` leaves behind, for every prior content of the output. -/
theorem StandardNormalGenerator.populate_eq (L : StdRandom α) (g : StandardNormalGenerator L)
    (old : List α) (k : Nat) :
    g.populate_standard_normals old k = ((List.range k).map (draw_value L g), draw_state L g k) := by
  unfold StandardNormalGenerator.populate_standard_normals
  simp only [List.take_zero]
  rw [StandardNormalGenerator.populate_loop_eq, List.nil_append]

/-- C17. For every size `k` and every prior content `old` of the output vector,
`populate_standard_normals(out, k)` leaves `out` with exactly `k` elements, which are the next
`k` variates of the generator (nothing of `old` survives), leaves the generator in the state
reached by exactly those `k` draws, and does not change `m_seed`. -/
theorem populate_standard_normals_fresh (L : StdRandom α) (g : StandardNormalGenerator L)
    (old : List α) (k : Nat) :
    (g.populate_standard_normals old k).1.length = k ∧
      (g.populate_standard_normals old k).1 = (List.range k).map (draw_value L g) ∧
      (g.populate_standard_normals old k).2 = draw_state L g k ∧
      (g.populate_standard_normals old k).2.m_seed = g.m_seed := by
  rw [StandardNormalGenerator.populate_eq]
  refine ⟨by simp, rfl, rfl, ?_⟩
  simp only
  induction k with
  | zero => rfl
  | succ k ih => rw [draw_state]; exact ih

/-- The draws depend on the engine and distribution states only, not on `m_seed`. -/
theorem draw_value_congr (L : StdRandom α) (g1 g2 : StandardNormalGenerator L)
    (hr : g1.m_rng = g2.m_rng) (hd : g1.m_dist = g2.m_dist) (i : Nat) :
    draw_value L g1 i = draw_value L g2 i ∧
      (draw_state L g1 i).m_rng = (draw_state L g2 i).m_rng ∧
      (draw_state L g1 i).m_dist = (draw_state L g2 i).m_dist := by
  have hst : (draw_state L g1 i).m_rng = (draw_state L g2 i).m_rng ∧
      (draw_state L g1 i).m_dist = (draw_state L g2 i).m_dist := by
    induction i with
    | zero => exact ⟨hr, hd⟩
    | succ i ih =>
      simp only [draw_state]
      rw [ih.1, ih.2]
      exact ⟨rfl, rfl⟩
  refine ⟨?_, hst⟩
  unfold draw_value
  rw [hst.1, hst.2]

/-- Re-seeding (or `reset()`) reproduces the sequence of a newly constructed sampler provided the
distribution object is in its initial state at that moment. -/
theorem seed_reproduces_of_fresh_dist (L : StdRandom α) (g : StandardNormalGenerator L)
    (s : Nat) (hd : g.m_dist = L.normal_distribution) (old : List α) (j : Nat) :
    ((g.seed s).populate_standard_normals old j).1 =
      ((StandardNormalGenerator.create L s).populate_standard_normals [] j).1 := by
  rw [StandardNormalGenerator.populate_eq, StandardNormalGenerator.populate_eq]
  apply List.map_congr_left
  intro i _
  exact (draw_value_congr L (g.seed s) (StandardNormalGenerator.create L s) rfl hd i).1

/-- With a pair-caching distribution, one draw after construction returns the first variate `x`
of the first round and keeps the second, `y`; after `reset()` the next draw returns the kept
`y`, not `x`. -/
theorem reset_after_one_draw (E : Type) (seedf : Nat → E) (gen_pair : E → α × α × E) (s : Nat) :
    ((StandardNormalGenerator.create (pairCachingRandom E seedf gen_pair) s
        ).populate_standard_normals [] 1).1 = [(gen_pair (seedf s)).1] ∧
    (((StandardNormalGenerator.create (pairCachingRandom E seedf gen_pair) s
        ).populate_standard_normals [] 1).2.reset.populate_standard_normals [] 1).1
      = [(gen_pair (seedf s)).2.1] := by
  constructor <;> rfl

end Sampler

/-- C16 (violated by the code). With a pair-caching `normal_distribution` (here over the counter
engine), a sampler seeded with `202504` returns `[405008]` on its first draw of one variate;
after `reset()` a draw of one variate returns `[405009]`, the variate kept by `m_dist`, instead
of repeating `[405008]`; the same happens after `seed(202504)`. -/
theorem reset_does_not_reproduce :
    ((StandardNormalGenerator.create (counterRandom : StdRandom ℚ) DEFAULT_RNG_SEED
        ).populate_standard_normals [] 1).1 = [405008] ∧
    (((StandardNormalGenerator.create (counterRandom : StdRandom ℚ) DEFAULT_RNG_SEED
        ).populate_standard_normals [] 1).2.reset.populate_standard_normals [] 1).1 = [405009] ∧
    ((((StandardNormalGenerator.create (counterRandom : StdRandom ℚ) DEFAULT_RNG_SEED
        ).populate_standard_normals [] 1).2.seed DEFAULT_RNG_SEED).populate_standard_normals
          [] 1).1 = [405009] := by
  refine ⟨?_, ?_, ?_⟩ <;>
    simp [StandardNormalGenerator.populate_standard_normals,
      StandardNormalGenerator.populate_loop, StandardNormalGenerator.create,
      StandardNormalGenerator.reset, StandardNormalGenerator.seed, counterRandom,
      pairCachingRandom, DEFAULT_RNG_SEED]

/-- C15 (violated by the code). Two samplers with the same seed `7`, one newly constructed and
one seeded by `seed(7)` after having drawn three variates, are driven by the same calls
(sizes 2, then 1): with a pair-caching `normal_distribution` their outputs differ at the first
call already. -/
theorem same_seed_different_output :
    ((StandardNormalGenerator.create (counterRandom : StdRandom ℚ) 7
        ).populate_standard_normals [] 2).1 = [14, 15] ∧
    ((((StandardNormalGenerator.create (counterRandom : StdRandom ℚ) 7
        ).populate_standard_normals [] 3).2.seed 7).populate_standard_normals [] 2).1
      = [17, 14] := by
  refine ⟨?_, ?_⟩ <;>
    simp [StandardNormalGenerator.populate_standard_normals,
      StandardNormalGenerator.populate_loop, StandardNormalGenerator.create,
      StandardNormalGenerator.seed, counterRandom, pairCachingRandom]

/-! ## Monte Carlo simulation of the index -/

section Simulation

variable {α : Type} [LinearOrderedField α]

/-- The path of a sample has `N + 1` entries. -/
theorem vt_sample_path_length (m : CMath α) (L : StdRandom α) (vt : VolatilityTarget α)
    (seed i : Nat) : (vt_sample_path m L vt seed i).length = vt.m_num_time_steps + 1 := by
  unfold vt_sample_path
  simp only
  rw [BlackScholes.populate_path_of_length m _ _ _ _ (by simp)]
  simp

/-- With `N + 1` within `size_t`, `compute_vt_level` accepts the path of every sample. -/
theorem vt_sample_ok (m : CMath α) (L : StdRandom α) (vt : VolatilityTarget α) (seed i : Nat)
    (hsz : vt.m_num_time_steps + 1 < SIZE_WIDTH) :
    vt_sample m L vt seed i =
      .ok (vt.vt_loop m (vt_sample_path m L vt seed i) vt.m_num_time_steps).1 := by
  have hlen := vt_sample_path_length m L vt seed i
  exact VolatilityTarget.compute_vt_level_of_length m vt _ (by rw [hlen]; exact hsz) hlen

/-- The loop of `simulate_vt_levels`, entered after `i0` samples with the sampler `i0 N` draws
past its seeding, appends the levels of the samples `i0, i0 + 1, ...` and ends normally,
whatever the two work vectors hold. -/
theorem VolatilityTarget.simulate_vt_levels_loop_eq (m : CMath α) (L : StdRandom α)
    (vt : VolatilityTarget α) (seed : Nat) (hsz : vt.m_num_time_steps + 1 < SIZE_WIDTH) :
    ∀ (left i0 : Nat) (rn sp acc : List α),
      vt.simulate_vt_levels_loop m (List.replicate vt.m_num_time_steps vt.m_dt) left
          (draw_state L (StandardNormalGenerator.create L seed) (i0 * vt.m_num_time_steps))
          rn sp acc =
        (acc ++ (List.range left).map fun j =>
          (vt.vt_loop m (vt_sample_path m L vt seed (i0 + j)) vt.m_num_time_steps).1, .ok ()) := by
  intro left
  induction left with
  | zero => intro i0 rn sp acc; simp [VolatilityTarget.simulate_vt_levels_loop]
  | succ left ih =>
    intro i0 rn sp acc
    have hblock : (List.range vt.m_num_time_steps).map (draw_value L
        (draw_state L (StandardNormalGenerator.create L seed) (i0 * vt.m_num_time_steps))) =
        (List.range vt.m_num_time_steps).map fun j =>
          draw_value L (StandardNormalGenerator.create L seed) (i0 * vt.m_num_time_steps + j) := by
      apply List.map_congr_left
      intro j _
      rw [draw_value_add]
    have hpath : ∀ old : List α, vt.m_sde.populate_path m old
        (List.replicate vt.m_num_time_steps vt.m_dt)
        ((List.range vt.m_num_time_steps).map fun j =>
          draw_value L (StandardNormalGenerator.create L seed) (i0 * vt.m_num_time_steps + j)) =
        (vt_sample_path m L vt seed i0, .ok ()) := by
      intro old
      unfold vt_sample_path
      simp only
      rw [BlackScholes.populate_path_of_length m _ old _ _ (by simp),
        BlackScholes.populate_path_of_length m _ [] _ _ (by simp)]
    have hlevel := vt_sample_ok m L vt seed i0 hsz
    unfold vt_sample at hlevel
    have hstate : draw_state L (StandardNormalGenerator.create L seed)
        (i0 * vt.m_num_time_steps + vt.m_num_time_steps) =
        draw_state L (StandardNormalGenerator.create L seed)
          ((i0 + 1) * vt.m_num_time_steps) := by
      rw [Nat.add_mul, Nat.one_mul]
    rw [VolatilityTarget.simulate_vt_levels_loop]
    simp only [StandardNormalGenerator.populate_eq, hblock, hpath, hlevel, draw_state_add, hstate]
    rw [ih (i0 + 1), List.range_succ_eq_map, List.map_cons, List.map_map, List.append_assoc,
      List.singleton_append]
    congr 3
    apply List.map_congr_left
    intro j _
    simp only [Function.comp_apply, Nat.succ_eq_add_one, Nat.add_assoc, Nat.add_comm 1 j]

/-- What `simulate_vt_levels` leaves in `vt_levels`, for every prior content of it. -/
theorem VolatilityTarget.simulate_vt_levels_eq (m : CMath α) (L : StdRandom α)
    (vt : VolatilityTarget α) (old : List α) (M seed : Nat)
    (hsz : vt.m_num_time_steps + 1 < SIZE_WIDTH) :
    vt.simulate_vt_levels m L old M seed =
      ((List.range M).map fun i =>
        (vt.vt_loop m (vt_sample_path m L vt seed i) vt.m_num_time_steps).1, .ok ()) := by
  have h := VolatilityTarget.simulate_vt_levels_loop_eq m L vt seed hsz M 0 [] [] []
  simp only [Nat.zero_mul, Nat.zero_add, List.nil_append] at h
  unfold VolatilityTarget.simulate_vt_levels
  simp only [List.take_zero]
  exact h

/-- C18. For every constructed engine (with `N + 1` within `size_t`), sample count `M` and seed
`s`, `simulate_vt_levels(out, M, s)` ends normally and leaves `out` with exactly `M` levels,
whatever it held before; entry `i` is what `compute_vt_level` returns on the path `populate_path`
builds from `N` steps equal to `dt = T/N` and block `i` of `N` consecutive draws of one sampler
seeded once with `s`; so calls with the same `M` and `s` leave the same sequence. -/
theorem simulate_vt_levels_samples (m : CMath α) (L : StdRandom α) (sde : BlackScholes α)
    (lamb : α) (N : Nat) (sigma_target T v0 L0 : α) (vt : VolatilityTarget α) (old : List α)
    (M s : Nat)
    (hvt : VolatilityTarget.create sde lamb N sigma_target T v0 L0 = .ok vt)
    (hsz : N + 1 < SIZE_WIDTH) :
    vt.m_num_time_steps = N ∧ vt.m_dt = T / (N : α) ∧
    ∃ levels : List α,
      vt.simulate_vt_levels m L old M s = (levels, .ok ()) ∧ levels.length = M ∧
      (∀ i, i < M → vt_sample m L vt s i = .ok (levels.getD i 0)) ∧
      ∀ old2 : List α, vt.simulate_vt_levels m L old2 M s = (levels, .ok ()) := by
  obtain ⟨rfl, -⟩ := vt_create_ok hvt
  refine ⟨rfl, rfl, _, VolatilityTarget.simulate_vt_levels_eq m L _ old M s hsz, by simp, ?_, ?_⟩
  · intro i hi
    rw [vt_sample_ok m L _ s i hsz]
    simp [List.getElem?_range, hi]
  · intro old2
    exact VolatilityTarget.simulate_vt_levels_eq m L _ old2 M s hsz

end Simulation

theorem simulate_vt_levels_samples_witness :
    VolatilityTarget.create (example_model : BlackScholes ℝ) 0.5 2 0.2 1 0.02 1
        = .ok example_engine ∧ 2 + 1 < SIZE_WIDTH ∧
      ∃ levels : List ℝ,
        (example_engine : VolatilityTarget ℝ).simulate_vt_levels realMath counterRandom [9] 3
            DEFAULT_RNG_SEED = (levels, .ok ()) ∧ levels.length = 3 :=
  have h := simulate_vt_levels_samples realMath counterRandom example_model 0.5 2 0.2 1 0.02 1
    example_engine [9] 3 DEFAULT_RNG_SEED example_engine_created (by simp [SIZE_WIDTH])
  ⟨example_engine_created, by simp [SIZE_WIDTH],
    h.2.2.choose, h.2.2.choose_spec.1, h.2.2.choose_spec.2.1⟩

/-! ## Failure of `populate_path`, `compute_vt_level` and of the constructors -/

section Failures

variable {α : Type} [LinearOrderedField α]

/-- C21. The call `populate_path(stock_path, dtimes, random_normals)` throws if and only if
`dtimes` and `random_normals` differ in length, and when it throws `stock_path` holds exactly
what it held before. -/
theorem populate_path_throws_iff (m : CMath α) (bs : BlackScholes α)
    (stock_path dtimes random_normals : List α) :
    ((∃ msg, (bs.populate_path m stock_path dtimes random_normals).2 = .error msg) ↔
        dtimes.length ≠ random_normals.length) ∧
      (dtimes.length ≠ random_normals.length →
        (bs.populate_path m stock_path dtimes random_normals).1 = stock_path) := by
  unfold BlackScholes.populate_path
  by_cases h : dtimes.length = random_normals.length
  · rw [if_neg (not_not.mpr h)]
    simp [h]
  · rw [if_pos h]
    simp [h]

/-- When `num_time_steps + 1` does not wrap around as a `size_t`, `compute_vt_level` throws if
and only if the length of the path differs from `num_time_steps + 1`. -/
theorem compute_vt_level_throws_iff_of_no_wrap (m : CMath α) (vt : VolatilityTarget α)
    (path : List α) (hsz : vt.m_num_time_steps + 1 < SIZE_WIDTH) :
    (∃ msg, vt.compute_vt_level m path = .error msg) ↔
      path.length ≠ vt.m_num_time_steps + 1 := by
  unfold VolatilityTarget.compute_vt_level
  rw [Nat.mod_eq_of_lt hsz]
  by_cases h : path.length = vt.m_num_time_steps + 1
  · rw [if_neg (not_not.mpr h)]
    simp [h]
  · rw [if_pos h]
    simp [h]

/-- C24. Construction of a `BlackScholes` model throws whenever `volatility ≤ 0` or
`init_level ≤ 0`, whatever the two rates are; every constructed model has `volatility > 0` and
`init_level > 0`, and its four accessors return the constructor arguments. -/
theorem bs_create_validates (r q sigma S0 : α) :
    ((sigma ≤ 0 ∨ S0 ≤ 0) → ∃ msg, BlackScholes.create r q sigma S0 = .error msg) ∧
      (∀ bs, BlackScholes.create r q sigma S0 = .ok bs →
        0 < bs.volatility ∧ 0 < bs.init_level ∧ bs.discount_rate = r ∧ bs.repo_rate = q ∧
          bs.volatility = sigma ∧ bs.init_level = S0) := by
  have hok : ∀ bs, BlackScholes.create r q sigma S0 = .ok bs →
      0 < bs.volatility ∧ 0 < bs.init_level ∧ bs.discount_rate = r ∧ bs.repo_rate = q ∧
        bs.volatility = sigma ∧ bs.init_level = S0 := by
    intro bs hbs
    obtain ⟨rfl, hs, hS⟩ := bs_create_ok hbs
    exact ⟨lt_trans (by norm_num) hs, lt_trans (by norm_num) hS, rfl, rfl, rfl, rfl⟩
  refine ⟨?_, hok⟩
  intro hbad
  cases hc : BlackScholes.create r q sigma S0 with
  | error msg => exact ⟨msg, rfl⟩
  | ok bs =>
    exfalso
    obtain ⟨h1, h2, -, -, h5, h6⟩ := hok bs hc
    rw [h5] at h1
    rw [h6] at h2
    rcases hbad with h | h
    · exact absurd h1 (not_lt.mpr h)
    · exact absurd h2 (not_lt.mpr h)

end Failures

/-- C22 (violated by the code). An engine constructed with `num_time_steps = 2^64 - 1` accepts
the empty path: the `size_t` sum `m_num_time_steps + 1` wraps around to `0`, the size test
passes, the loop makes no pass and `init_level = 1` is returned, although the length `0` differs
from `num_time_steps + 1`. -/
theorem compute_vt_level_accepts_empty_path :
    VolatilityTarget.create (example_model : BlackScholes ℝ) 0.5 (SIZE_WIDTH - 1) 0.2 1 0.02 1
        = .ok ⟨example_model, 0.5, 0.2, 1, 0.02, 1, SIZE_WIDTH - 1,
            1 / ((SIZE_WIDTH - 1 : Nat) : ℝ)⟩ ∧
      ([] : List ℝ).length ≠ (SIZE_WIDTH - 1) + 1 ∧
      (⟨example_model, 0.5, 0.2, 1, 0.02, 1, SIZE_WIDTH - 1,
          1 / ((SIZE_WIDTH - 1 : Nat) : ℝ)⟩ : VolatilityTarget ℝ).compute_vt_level realMath []
        = .ok 1 := by
  refine ⟨?_, by simp [SIZE_WIDTH], ?_⟩
  · exact vt_create_of_valid (by norm_num) (by norm_num) (by norm_num)
      (by simp [SIZE_WIDTH]) (by norm_num) (by norm_num)
  · simp [VolatilityTarget.compute_vt_level, SIZE_WIDTH, VolatilityTarget.vt_loop]

/-! ## Finite-difference rho -/

section Rho

variable {α : Type} [LinearOrderedField α]

/-- For a constructed model the bumped model of `get_call_rho` and `get_put_rho` is
constructed without failure: it has the same volatility and initial level. -/
theorem bumped_create_ok (r q sigma S0 : α) (bs : BlackScholes α)
    (hbs : BlackScholes.create r q sigma S0 = .ok bs) :
    BlackScholes.create bs.m_discount_rate (bs.m_repo_rate + 0.01 * bs.m_repo_rate)
        bs.m_volatility bs.m_init_level
      = .ok ⟨r, q + 0.01 * q, sigma, S0⟩ := by
  obtain ⟨rfl, hs, hS⟩ := bs_create_ok hbs
  exact bs_create_of_pos hs hS

/-- What `get_put_rho` computes for a constructed model: the put price of the model minus the
call price of the bumped model, over the bump. -/
theorem get_put_rho_eq (m : CMath α) (r q sigma S0 K T : α) (bs : BlackScholes α)
    (hbs : BlackScholes.create r q sigma S0 = .ok bs) :
    bs.get_put_rho m K T =
      .ok (((⟨r, q, sigma, S0⟩ : BlackScholes α).get_put_price m K T
          - (⟨r, q + 0.01 * q, sigma, S0⟩ : BlackScholes α).get_call_price m K T)
        / (0.01 * q)) := by
  have hb := bumped_create_ok r q sigma S0 bs hbs
  obtain ⟨rfl, -, -⟩ := bs_create_ok hbs
  unfold BlackScholes.get_put_rho
  simp only [hb]

end Rho

/-- Above zero the normal CDF is above one half. -/
theorem normal_cdf_gt_half {x : ℝ} (h : 0 < x) : 1 / 2 < normal_cdf realMath x := by
  have hn := normal_cdf_lt_half (neg_lt_zero.mpr h)
  rw [normal_cdf_neg] at hn
  linarith

/-- C25 (violated by the code). For the constructed model `r = 1.01`, `q = 1`, `σ = 1`,
`S0 = 2` and `K = 1`, `T = 1`, `get_put_rho` returns `(P_q - C_{1.01 q}) / (0.01 q)`, with the
call price of the bumped model, which is strictly below the finite difference
`(P_q - P_{1.01 q}) / (0.01 q)` of the put price. -/
theorem get_put_rho_ne_put_difference :
    BlackScholes.create (1.01 : ℝ) 1 1 2 = .ok ⟨1.01, 1, 1, 2⟩ ∧
    ∃ v, (⟨1.01, 1, 1, 2⟩ : BlackScholes ℝ).get_put_rho realMath 1 1 = .ok v ∧
      v < ((⟨1.01, 1, 1, 2⟩ : BlackScholes ℝ).get_put_price realMath 1 1
          - (⟨1.01, 1.01 * 1, 1, 2⟩ : BlackScholes ℝ).get_put_price realMath 1 1)
        / (0.01 * 1) := by
  have hc : BlackScholes.create (1.01 : ℝ) 1 1 2 = .ok ⟨1.01, 1, 1, 2⟩ :=
    bs_create_of_pos (by norm_num) (by norm_num)
  refine ⟨hc, _, get_put_rho_eq realMath 1.01 1 1 2 1 1 _ hc, ?_⟩
  have hq : (1 : ℝ) + 0.01 * 1 = 1.01 * 1 := by norm_num
  rw [hq]
  have hdiff := get_call_price_sub_get_put_price
    (⟨1.01, 1.01 * 1, 1, 2⟩ : BlackScholes ℝ) 1 1
  have hlog := Real.log_two_gt_d9
  have h1 : (1 : ℝ) / 2 < normal_cdf realMath (Real.log 2 + 1 / 2) :=
    normal_cdf_gt_half (by linarith)
  have h2 : (1 : ℝ) / 2 < normal_cdf realMath (Real.log 2 + 1 / 2 - 1) :=
    normal_cdf_gt_half (by linarith)
  have hexp : 0 < Real.exp (-(1.01 * 1 : ℝ)) := Real.exp_pos _
  norm_num at hdiff
  have hgap : (⟨1.01, 1.01 * 1, 1, 2⟩ : BlackScholes ℝ).get_put_price realMath 1 1
      < (⟨1.01, 1.01 * 1, 1, 2⟩ : BlackScholes ℝ).get_call_price realMath 1 1 := by
    norm_num
    norm_num at hexp
    nlinarith [mul_pos hexp (by linarith : 0 < normal_cdf realMath (Real.log 2 + 1 / 2)
      + normal_cdf realMath (Real.log 2 + 1 / 2 - 1))]
  have hpos : (0 : ℝ) < 0.01 * 1 := by norm_num
  exact div_lt_div_of_pos_right (by linarith) hpos

/-! ## Positivity of simulated paths -/

/-- With a positive start every level of the recurrence is positive. -/
theorem gbm_level_pos (r q sigma S0 : ℝ) (dtimes shocks : List ℝ) (hS : 0 < S0) (i : Nat) :
    0 < gbm_level realMath r q sigma S0 dtimes shocks i := by
  induction i with
  | zero => exact hS
  | succ i ih =>
    rw [gbm_level]
    exact mul_pos ih (Real.exp_pos _)

/-- An entry of a list at a valid index is a member of the list. -/
theorem getD_mem_of_lt (l : List ℝ) (i : Nat) (hi : i < l.length) : l.getD i 0 ∈ l := by
  rw [List.getD_eq_getElem l 0 hi]
  exact List.getElem_mem hi

/-- In exact arithmetic with the real `exp` and `sqrt`, for every constructed model and all
equal-length `dtimes` and `shocks`, every element of the path produced by `populate_path` is
`> 0`; hence for every index `i ≥ 1` of the path the divisor `path[i-1]` is not zero and the
simple return `path[i]/path[i-1] - 1` is `> -1`. In double arithmetic this fails: see
`populate_path_reaches_zero`. -/
theorem populate_path_pos (r q sigma S0 : ℝ) (bs : BlackScholes ℝ) (old dtimes shocks : List ℝ)
    (hbs : BlackScholes.create r q sigma S0 = .ok bs) (hlen : dtimes.length = shocks.length) :
    (∀ x ∈ (bs.populate_path realMath old dtimes shocks).1, 0 < x) ∧
      ∀ i, 1 ≤ i → i < (bs.populate_path realMath old dtimes shocks).1.length →
        (bs.populate_path realMath old dtimes shocks).1.getD (i - 1) 0 ≠ 0 ∧
        -1 < (bs.populate_path realMath old dtimes shocks).1.getD i 0
              / (bs.populate_path realMath old dtimes shocks).1.getD (i - 1) 0 - 1 := by
  obtain ⟨rfl, -, hS⟩ := bs_create_ok hbs
  have hS0 : (0 : ℝ) < S0 := lt_trans (by norm_num) hS
  have hall : ∀ x ∈ ((⟨r, q, sigma, S0⟩ : BlackScholes ℝ).populate_path realMath old dtimes
      shocks).1, 0 < x := by
    rw [BlackScholes.populate_path_of_length realMath _ old dtimes shocks hlen]
    intro x hx
    simp only [List.mem_map] at hx
    obtain ⟨i, -, rfl⟩ := hx
    exact gbm_level_pos r q sigma S0 dtimes shocks hS0 i
  refine ⟨hall, ?_⟩
  intro i hi1 hi
  have hprev := hall _ (getD_mem_of_lt _ (i - 1) (by omega))
  have hcur := hall _ (getD_mem_of_lt _ i hi)
  refine ⟨hprev.ne', ?_⟩
  have hratio := div_pos hcur hprev
  linarith

theorem populate_path_pos_witness :
    BlackScholes.create (0.05 : ℝ) 0.02 0.5 1 = .ok example_model ∧
      ([0.5, 0.5] : List ℝ).length = ([1, -1] : List ℝ).length ∧
      ∀ x ∈ ((example_model : BlackScholes ℝ).populate_path realMath [7] [0.5, 0.5] [1, -1]).1,
        0 < x :=
  have h : BlackScholes.create (0.05 : ℝ) 0.02 0.5 1 = .ok example_model :=
    bs_create_of_pos (by norm_num) (by norm_num)
  ⟨h, rfl, (populate_path_pos 0.05 0.02 0.5 1 example_model [7] [0.5, 0.5] [1, -1] h rfl).1⟩

/-! ## The q-Pochhammer symbol on the domain of the multipliers -/

/-- For `a ≤ 0` and `q > 0` every factor `1 - a q^k` is at least `1`. -/
theorem q_pochhammer_factor_ge_one (a q : ℝ) (ha : a ≤ 0) (hq0 : 0 < q) (k : Nat) :
    1 ≤ 1 - a * q ^ k := by
  have hqk : 0 < q ^ k := pow_pos hq0 k
  nlinarith [mul_nonneg (neg_nonneg.mpr ha) hqk.le]

/-- For `a ≤ 0` and `0 < q < 1`, `q_pochhammer a q n` returns a value `≥ 1`, whatever `n`. -/
theorem q_pochhammer_ok_ge_one (a q : ℝ) (n : Int) (ha : a ≤ 0) (hq0 : 0 < q) (hq1 : q < 1) :
    ∃ v, q_pochhammer realMath a q n = .ok v ∧ 1 ≤ v := by
  have hq : |q| < 1 := by rw [abs_of_pos hq0]; exact hq1
  unfold q_pochhammer
  rw [if_neg (not_not.mpr hq)]
  split_ifs
  · exact ⟨_, rfl, by norm_num⟩
  · refine ⟨_, rfl, ?_⟩
    rw [q_pochhammer_loop_eq, realMath_exp, realMath_log]
    apply Real.one_le_exp
    show 0 ≤ ∑ i in Finset.range _, Real.log (1 - a * q ^ i)
    apply Finset.sum_nonneg
    intro k _
    exact Real.log_nonneg (q_pochhammer_factor_ge_one a q ha hq0 k)

/-- The reciprocal square root of a number `≥ 1` lies in `(0, 1]`. -/
theorem one_div_sqrt_mem (v : ℝ) (hv : 1 ≤ v) :
    0 < 1.0 / realMath.sqrt v ∧ 1.0 / realMath.sqrt v ≤ 1 := by
  have hs : 1 ≤ Real.sqrt v := by
    rw [← Real.sqrt_one]
    exact Real.sqrt_le_sqrt hv
  have hpos : 0 < Real.sqrt v := lt_of_lt_of_le one_pos hs
  have o : (1.0 : ℝ) = 1 := by norm_num
  rw [realMath_sqrt, o]
  exact ⟨div_pos one_pos hpos, (div_le_one hpos).mpr hs⟩

/-- C30. For every `a ≤ 0`, every `q` with `0 < q < 1` and every `n` (supplied or automatic),
every factor `1 - a q^k` is `≥ 1` and `q_pochhammer a q n` returns a value `≥ 1`; hence for
`lambda = q` and every `t` in `[0, 20]` the integrands `1/sqrt(q_pochhammer(-t t, lambda))` of
`multiplier_U` and `1/sqrt(q_pochhammer(-t, lambda))` of `multiplier_V` return values in
`(0, 1]`. -/
theorem q_pochhammer_ge_one (a q : ℝ) (n : Int) (ha : a ≤ 0) (hq0 : 0 < q) (hq1 : q < 1) :
    (∀ k : Nat, 1 ≤ 1 - a * q ^ k) ∧
      (∃ v, q_pochhammer realMath a q n = .ok v ∧ 1 ≤ v) ∧
      ∀ t : ℝ, 0 ≤ t → t ≤ 20 →
        (∃ u, multiplier_U_integrand realMath q t = .ok u ∧ 0 < u ∧ u ≤ 1) ∧
        (∃ u, multiplier_V_integrand realMath q t = .ok u ∧ 0 < u ∧ u ≤ 1) := by
  refine ⟨q_pochhammer_factor_ge_one a q ha hq0, q_pochhammer_ok_ge_one a q n ha hq0 hq1, ?_⟩
  intro t ht0 _
  constructor
  · obtain ⟨v, hv, hv1⟩ := q_pochhammer_ok_ge_one (-t * t) q (-1)
      (by nlinarith [mul_nonneg ht0 ht0]) hq0 hq1
    refine ⟨1.0 / realMath.sqrt v, ?_, one_div_sqrt_mem v hv1⟩
    unfold multiplier_U_integrand
    rw [hv]
  · obtain ⟨v, hv, hv1⟩ := q_pochhammer_ok_ge_one (-t) q (-1) (by linarith) hq0 hq1
    refine ⟨1.0 / realMath.sqrt v, ?_, one_div_sqrt_mem v hv1⟩
    unfold multiplier_V_integrand
    rw [hv]

theorem q_pochhammer_ge_one_witness :
    (-4 : ℝ) ≤ 0 ∧ (0 : ℝ) < 0.97 ∧ (0.97 : ℝ) < 1 ∧
      (∃ v, q_pochhammer realMath (-4) 0.97 (-1) = .ok v ∧ 1 ≤ v) ∧
      ∃ u, multiplier_V_integrand realMath 0.97 2 = .ok u ∧ 0 < u ∧ u ≤ 1 :=
  have h := q_pochhammer_ge_one (-4) 0.97 (-1) (by norm_num) (by norm_num) (by norm_num)
  ⟨by norm_num, by norm_num, by norm_num, h.2.1, (h.2.2 2 (by norm_num) (by norm_num)).2⟩

/-! ## Sign of the index level -/

section LevelSign

variable {α : Type} [LinearOrderedField α]

/-- A product of non-zero factors is not zero, and it is positive exactly when the number of
negative factors is even. -/
theorem prod_range_sign (f : Nat → α) (n : Nat) (hnz : ∀ i, i < n → f i ≠ 0) :
    (∏ i in Finset.range n, f i) ≠ 0 ∧
      (0 < ∏ i in Finset.range n, f i ↔
        Even ((Finset.range n).filter fun i => f i < 0).card) := by
  induction n with
  | zero => simp
  | succ n ih =>
    obtain ⟨hne, hiff⟩ := ih (fun i hi => hnz i (by omega))
    have hfn := hnz n (by omega)
    rw [Finset.prod_range_succ, Finset.range_succ, Finset.filter_insert]
    refine ⟨mul_ne_zero hne hfn, ?_⟩
    rcases lt_or_gt_of_ne hfn with hneg | hpos
    · rw [if_pos hneg, Finset.card_insert_of_not_mem (by simp), Nat.even_add_one, ← hiff]
      constructor
      · intro h hp
        exact absurd h (not_lt.mpr (mul_nonpos_of_nonneg_of_nonpos hp.le hneg.le))
      · intro hnp
        exact mul_pos_of_neg_of_neg (lt_of_le_of_ne (not_lt.mp hnp) hne) hneg
    · rw [if_neg (not_lt.mpr (le_of_lt hpos)), ← hiff]
      exact mul_pos_iff_of_pos_right hpos

/-- A product is positive exactly when no factor is zero and the number of negative factors is
even. -/
theorem prod_range_pos_iff (f : Nat → α) (n : Nat) :
    0 < ∏ i in Finset.range n, f i ↔
      (∀ i, i < n → f i ≠ 0) ∧ Even ((Finset.range n).filter fun i => f i < 0).card := by
  constructor
  · intro h
    have hnz : ∀ i, i < n → f i ≠ 0 := by
      intro i hi
      exact (Finset.prod_ne_zero_iff.mp h.ne') i (Finset.mem_range.mpr hi)
    exact ⟨hnz, (prod_range_sign f n hnz).2.mp h⟩
  · rintro ⟨hnz, hev⟩
    exact (prod_range_sign f n hnz).2.mpr hev

/-- The level of the recurrence is the initial level times the step factors. -/
theorem vt_level_eq_prod (m : CMath α) (path : List α) (L0 v0 sigma_target lam r dt : α)
    (k : Nat) :
    vt_level m path L0 v0 sigma_target lam r dt k =
      L0 * ∏ i in Finset.range k, vt_factor m path v0 sigma_target lam r dt (i + 1) := by
  induction k with
  | zero => simp [vt_level]
  | succ k ih =>
    rw [vt_level, ih, Finset.prod_range_succ]
    simp only [vt_factor, Nat.add_sub_cancel]
    ring

/-- For a constructed engine and a path of length `N + 1`, `compute_vt_level` returns the
initial level times the `N` step factors, and that value is positive exactly when no step
factor is zero and the number of negative ones is even. -/
theorem compute_vt_level_pos_iff (m : CMath α) (sde : BlackScholes α) (lamb : α) (N : Nat)
    (sigma_target T v0 L0 : α) (vt : VolatilityTarget α) (path : List α)
    (hvt : VolatilityTarget.create sde lamb N sigma_target T v0 L0 = .ok vt)
    (hsz : path.length < SIZE_WIDTH) (hlen : path.length = N + 1) :
    vt.compute_vt_level m path =
        .ok (L0 * ∏ i in Finset.range N,
          vt_factor m path v0 sigma_target lamb sde.m_discount_rate (T / (N : α)) (i + 1)) ∧
      (0 < L0 * ∏ i in Finset.range N,
          vt_factor m path v0 sigma_target lamb sde.m_discount_rate (T / (N : α)) (i + 1) ↔
        (∀ i, i < N →
          vt_factor m path v0 sigma_target lamb sde.m_discount_rate (T / (N : α)) (i + 1) ≠ 0) ∧
        Even ((Finset.range N).filter fun i =>
          vt_factor m path v0 sigma_target lamb sde.m_discount_rate (T / (N : α)) (i + 1)
            < 0).card) := by
  obtain ⟨rfl, -, -, -, -, -, hL⟩ := vt_create_ok hvt
  have hL0 : (0 : α) < L0 := lt_trans (by norm_num) hL
  constructor
  · rw [VolatilityTarget.compute_vt_level_of_length m _ path hsz hlen,
      VolatilityTarget.vt_loop_eq, vt_level_eq_prod]
  · rw [← prod_range_pos_iff]
    exact mul_pos_iff_of_pos_left hL0

end LevelSign

/-- The first step factor of `example_engine` on the path `[1, 0.1, 0.1]` is negative. -/
theorem example_factor_one_neg :
    vt_factor realMath [1, 0.1, 0.1] 0.02 0.2 0.5 0.05 (1 / ((2 : Nat) : ℝ)) 1 < 0 := by
  have hs0 : 0 < Real.sqrt 0.02 := Real.sqrt_pos.mpr (by norm_num)
  have hs1 : Real.sqrt 0.02 < 0.18 := (Real.sqrt_lt' (by norm_num)).mpr (by norm_num)
  have hw : 1.025 < 0.185 / Real.sqrt 0.02 := by
    rw [lt_div_iff₀ hs0]
    nlinarith
  have hval : vt_factor realMath [1, 0.1, 0.1] 0.02 0.2 0.5 0.05 (1 / ((2 : Nat) : ℝ)) 1
      = 1.025 - 0.185 / Real.sqrt 0.02 := by
    simp only [vt_factor, vt_var, vt_ret, realMath_sqrt, Nat.sub_self, List.getD_cons_succ,
      List.getD_cons_zero]
    field_simp
    ring
  rw [hval]
  linarith

/-- The second step factor of `example_engine` on the path `[1, 0.1, 0.1]` is positive. -/
theorem example_factor_two_pos :
    0 < vt_factor realMath [1, 0.1, 0.1] 0.02 0.2 0.5 0.05 (1 / ((2 : Nat) : ℝ)) 2 := by
  have hvar : vt_var [1, 0.1, 0.1] 0.5 0.02 (1 / ((2 : Nat) : ℝ)) 1 = (0.82 : ℝ) := by
    simp only [vt_var, vt_ret, Nat.sub_self, Nat.add_sub_cancel, List.getD_cons_succ,
      List.getD_cons_zero]
    norm_num
  have hret : vt_ret ([1, 0.1, 0.1] : List ℝ) 2 = 0 := by
    simp only [vt_ret, List.getD_cons_succ, List.getD_cons_zero]
    norm_num
  have hs : 0.2 < Real.sqrt 0.82 := (Real.lt_sqrt (by norm_num)).mpr (by norm_num)
  have hw : 0.2 / Real.sqrt 0.82 < 1 := (div_lt_one (by linarith)).mpr hs
  have hval : vt_factor realMath [1, 0.1, 0.1] 0.02 0.2 0.5 0.05 (1 / ((2 : Nat) : ℝ)) 2
      = 1 + (1 - 0.2 / Real.sqrt 0.82) * 0.05 * (1 / ((2 : Nat) : ℝ)) := by
    simp only [vt_factor, realMath_sqrt, Nat.add_sub_cancel, hret, mul_zero, add_zero]
    rw [show (2 - 1 : Nat) = 1 from rfl, hvar]
  rw [hval]
  have h2 : (0 : ℝ) < 1 / ((2 : Nat) : ℝ) := by norm_num
  have h3 : 0 < (1 - 0.2 / Real.sqrt 0.82) * 0.05 * (1 / ((2 : Nat) : ℝ)) :=
    mul_pos (mul_pos (by linarith) (by norm_num)) h2
  linarith

/-- C29. The index level can be non-positive on a strictly positive path: the engine
`λ = 0.5`, `N = 2`, `σ* = 0.2`, `T = 1`, `v0 = 0.02`, `L0 = 1` on the model with discount rate
`0.05` returns a negative level for the path `[1, 0.1, 0.1]`. In general, for a constructed
engine and a path of length `N + 1`, the level returned is positive exactly when none of the
step factors `1 + (1 - w_i) r dt + w_i ret_i` is zero and an even number of them are
negative. -/
theorem compute_vt_level_sign :
    (VolatilityTarget.create (example_model : BlackScholes ℝ) 0.5 2 0.2 1 0.02 1
        = .ok example_engine ∧
      (∀ x ∈ ([1, 0.1, 0.1] : List ℝ), 0 < x) ∧
      ∃ v, (example_engine : VolatilityTarget ℝ).compute_vt_level realMath [1, 0.1, 0.1]
        = .ok v ∧ v < 0) ∧
    ∀ (sde : BlackScholes ℝ) (lamb : ℝ) (N : Nat) (sigma_target T v0 L0 : ℝ)
      (vt : VolatilityTarget ℝ) (path : List ℝ),
      VolatilityTarget.create sde lamb N sigma_target T v0 L0 = .ok vt →
      path.length < SIZE_WIDTH → path.length = N + 1 →
      ∃ level, vt.compute_vt_level realMath path = .ok level ∧
        (0 < level ↔
          (∀ i, i < N → vt_factor realMath path v0 sigma_target lamb sde.m_discount_rate
            (T / (N : ℝ)) (i + 1) ≠ 0) ∧
          Even ((Finset.range N).filter fun i =>
            vt_factor realMath path v0 sigma_target lamb sde.m_discount_rate
              (T / (N : ℝ)) (i + 1) < 0).card) := by
  constructor
  · refine ⟨example_engine_created, ?_, ?_⟩
    · intro x hx
      simp only [List.mem_cons, List.mem_singleton, List.not_mem_nil, or_false] at hx
      rcases hx with rfl | rfl | rfl <;> norm_num
    · have h := (compute_vt_level_pos_iff realMath example_model 0.5 2 0.2 1 0.02 1
        example_engine [1, 0.1, 0.1] example_engine_created (by simp [SIZE_WIDTH]) rfl).1
      refine ⟨_, h, ?_⟩
      have h1 := example_factor_one_neg
      have h2 := example_factor_two_pos
      have hr : (example_model : BlackScholes ℝ).m_discount_rate = 0.05 := rfl
      rw [Finset.prod_range_succ, Finset.prod_range_succ, Finset.prod_range_zero, hr, one_mul,
        one_mul]
      exact mul_neg_of_neg_of_pos h1 h2
  · intro sde lamb N sigma_target T v0 L0 vt path hvt hsz hlen
    obtain ⟨h1, h2⟩ := compute_vt_level_pos_iff realMath sde lamb N sigma_target T v0 L0 vt
      path hvt hsz hlen
    exact ⟨_, h1, h2⟩

/-! ## Linearity in the initial index level -/

section Linearity

variable {α : Type} [LinearOrderedField α]

/-- C31. For two engines constructed on the same model from the same arguments except the
initial level (`L0` and `L0'`), and every path of length `N + 1` with non-zero entries, both
calls of `compute_vt_level` return, and the two levels satisfy `level' L0 = level L0'`; so
`level / L0` is the same for both. -/
theorem compute_vt_level_linear (m : CMath α) (sde : BlackScholes α) (lamb : α) (N : Nat)
    (sigma_target T v0 L0 L0' : α) (vt vt' : VolatilityTarget α) (path : List α)
    (hvt : VolatilityTarget.create sde lamb N sigma_target T v0 L0 = .ok vt)
    (hvt' : VolatilityTarget.create sde lamb N sigma_target T v0 L0' = .ok vt')
    (hsz : path.length < SIZE_WIDTH) (hlen : path.length = N + 1)
    (_hnz : ∀ x ∈ path, x ≠ 0) :
    ∃ level level', vt.compute_vt_level m path = .ok level ∧
      vt'.compute_vt_level m path = .ok level' ∧
      level' * L0 = level * L0' ∧ level' / L0' = level / L0 := by
  have h := (compute_vt_level_pos_iff m sde lamb N sigma_target T v0 L0 vt path hvt hsz hlen).1
  have h' :=
    (compute_vt_level_pos_iff m sde lamb N sigma_target T v0 L0' vt' path hvt' hsz hlen).1
  obtain ⟨-, -, -, -, -, -, hL⟩ := vt_create_ok hvt
  obtain ⟨-, -, -, -, -, -, hL'⟩ := vt_create_ok hvt'
  have hL0 : L0 ≠ 0 := (lt_trans (by norm_num) hL).ne'
  have hL0' : L0' ≠ 0 := (lt_trans (by norm_num) hL').ne'
  refine ⟨_, _, h, h', by ring, ?_⟩
  rw [mul_comm L0', mul_comm L0, mul_div_cancel_right₀ _ hL0', mul_div_cancel_right₀ _ hL0]

end Linearity

theorem compute_vt_level_linear_witness :
    VolatilityTarget.create (example_model : BlackScholes ℝ) 0.5 2 0.2 1 0.02 1
        = .ok example_engine ∧
      VolatilityTarget.create (example_model : BlackScholes ℝ) 0.5 2 0.2 1 0.02 3
        = .ok ⟨example_model, 0.5, 0.2, 1, 0.02, 3, 2, 1 / ((2 : Nat) : ℝ)⟩ ∧
      ([1, 2, 1] : List ℝ).length = 2 + 1 ∧ (∀ x ∈ ([1, 2, 1] : List ℝ), x ≠ 0) ∧
      ∃ level level',
        (example_engine : VolatilityTarget ℝ).compute_vt_level realMath [1, 2, 1] = .ok level ∧
        (⟨example_model, 0.5, 0.2, 1, 0.02, 3, 2, 1 / ((2 : Nat) : ℝ)⟩ :
            VolatilityTarget ℝ).compute_vt_level realMath [1, 2, 1] = .ok level' ∧
        level' * 1 = level * 3 ∧ level' / 3 = level / 1 :=
  have h3 : VolatilityTarget.create (example_model : BlackScholes ℝ) 0.5 2 0.2 1 0.02 3
      = .ok ⟨example_model, 0.5, 0.2, 1, 0.02, 3, 2, 1 / ((2 : Nat) : ℝ)⟩ :=
    vt_create_of_valid (by norm_num) (by norm_num) (by norm_num) (by norm_num) (by norm_num)
      (by norm_num)
  ⟨example_engine_created, h3, rfl, by simp,
    compute_vt_level_linear realMath example_model 0.5 2 0.2 1 0.02 1 3 example_engine _
      [1, 2, 1] example_engine_created h3 (by simp [SIZE_WIDTH]) rfl (by simp)⟩

/-! ## Double arithmetic -/

/-- An integer is its own rounding to the nearest integer. -/
theorem round_ties_even_intCast (k : Int) : round_ties_even ((k : ℝ)) = k := by
  simp [round_ties_even]

theorem round_double_zero : round_double (0 : ℝ) = 0 := by
  simp [round_double, round_ties_even]

/-- The binary exponent of a real number between two consecutive powers of two. -/
theorem int_log_two_eq (x : ℝ) (k : Int) (h1 : (2 : ℝ) ^ k ≤ x) (h2 : x < (2 : ℝ) ^ (k + 1)) :
    Int.log 2 x = k := by
  have hx : 0 < x := lt_of_lt_of_le (zpow_pos (by norm_num) k) h1
  have ha : k ≤ Int.log 2 x := (Int.zpow_le_iff_le_log (by norm_num) hx).mp (by exact_mod_cast h1)
  have hb : Int.log 2 x < k + 1 :=
    (Int.lt_zpow_iff_log_lt (by norm_num) hx).mp (by exact_mod_cast h2)
  omega

/-- A binary64 number, `n * 2^e` with `|n| < 2^53` and `e ≥ -1074`, is its own rounding. -/
theorem round_double_of_representable (n e : Int) (hn : |n| < 2 ^ 53) (he : -1074 ≤ e) :
    round_double ((n : ℝ) * 2 ^ e) = (n : ℝ) * 2 ^ e := by
  by_cases hn0 : n = 0
  · simp [hn0, round_double_zero]
  have h2 : (0 : ℝ) < 2 := by norm_num
  have hxpos : 0 < |(n : ℝ) * 2 ^ e| := by
    rw [abs_pos]
    exact mul_ne_zero (by exact_mod_cast hn0) (zpow_pos h2 e).ne'
  have hlt : |(n : ℝ) * 2 ^ e| < (2 : ℝ) ^ (53 + e) := by
    rw [abs_mul, abs_of_pos (zpow_pos h2 e), zpow_add₀ h2.ne']
    apply mul_lt_mul_of_pos_right _ (zpow_pos h2 e)
    have hc : ((|n| : Int) : ℝ) < ((2 ^ 53 : Int) : ℝ) := by exact_mod_cast hn
    rw [Int.cast_abs] at hc
    exact_mod_cast hc
  have hlog : Int.log 2 |(n : ℝ) * 2 ^ e| < 53 + e :=
    (Int.lt_zpow_iff_log_lt (by norm_num) hxpos).mp (by exact_mod_cast hlt)
  have hu : double_ulp_exp ((n : ℝ) * 2 ^ e) ≤ e := by
    unfold double_ulp_exp
    omega
  obtain ⟨d, hd⟩ : ∃ d : Nat, e = double_ulp_exp ((n : ℝ) * 2 ^ e) + d :=
    ⟨(e - double_ulp_exp ((n : ℝ) * 2 ^ e)).toNat, by omega⟩
  have hq : (n : ℝ) * 2 ^ e / 2 ^ double_ulp_exp ((n : ℝ) * 2 ^ e) = ((n * 2 ^ d : Int) : ℝ) := by
    have hz : (2 : ℝ) ^ double_ulp_exp ((n : ℝ) * 2 ^ e) ≠ 0 := (zpow_pos h2 _).ne'
    rw [div_eq_iff hz]
    push_cast
    nth_rewrite 1 [hd]
    rw [zpow_add₀ h2.ne', zpow_natCast]
    ring
  unfold round_double
  rw [hq, round_ties_even_intCast, ← hq]
  exact div_mul_cancel₀ _ (zpow_pos h2 _).ne'

/-- A real number of absolute value at most one half rounds to the integer zero. -/
theorem round_ties_even_of_abs_le_half (y : ℝ) (h : |y| ≤ 1 / 2) : round_ties_even y = 0 := by
  obtain ⟨hlo, hhi⟩ := abs_le.mp h
  by_cases hy : 0 ≤ y
  · have hf : Int.floor y = 0 := Int.floor_eq_iff.mpr ⟨by simpa using hy, by norm_num; linarith⟩
    unfold round_ties_even
    rw [hf]
    simp only [Int.cast_zero, sub_zero]
    split_ifs with h1 h2 h3
    · rfl
    · linarith
    · rfl
    · simp at h3
  · have hy' : y < 0 := not_le.mp hy
    have hf : Int.floor y = -1 :=
      Int.floor_eq_iff.mpr ⟨by norm_num; linarith, by norm_num; linarith⟩
    unfold round_ties_even
    rw [hf]
    simp only [Int.cast_neg, Int.cast_one, sub_neg_eq_add]
    split_ifs with h1 h2 h3
    · linarith
    · rfl
    · simp at h3
    · rfl

/-- Underflow: a real number of absolute value at most `2^(-1075)`, half the smallest positive
binary64 number, rounds to zero (at `2^(-1075)` itself by the tie going to even). -/
theorem round_double_of_tiny (x : ℝ) (h : |x| ≤ (2 : ℝ) ^ (-1075 : Int)) : round_double x = 0 := by
  by_cases hx0 : x = 0
  · rw [hx0, round_double_zero]
  have h2 : (0 : ℝ) < 2 := by norm_num
  have hxpos : 0 < |x| := abs_pos.mpr hx0
  have hlt : |x| < (2 : ℝ) ^ (-1022 : Int) :=
    lt_of_le_of_lt h (zpow_lt_zpow_right₀ (by norm_num) (by norm_num))
  have hlog : Int.log 2 |x| < -1022 :=
    (Int.lt_zpow_iff_log_lt (by norm_num) hxpos).mp (by exact_mod_cast hlt)
  have hu : double_ulp_exp x = -1074 := by
    unfold double_ulp_exp
    omega
  unfold round_double
  rw [hu, round_ties_even_of_abs_le_half, Int.cast_zero, zero_mul]
  rw [abs_div, abs_of_pos (zpow_pos h2 _), div_le_iff₀ (zpow_pos h2 _)]
  calc |x| ≤ (2 : ℝ) ^ (-1075 : Int) := h
    _ = 1 / 2 * 2 ^ (-1074 : Int) := by
      rw [show (-1074 : Int) = -1075 + 1 from rfl, zpow_add₀ h2.ne', zpow_one]
      ring

/-- Absorption: `1e16 + 1` lies halfway between the binary64 numbers `1e16` and `1e16 + 2` and
rounds to `1e16`, whose significand is even. -/
theorem round_double_1e16_add_one : round_double ((1e16 : ℝ) + 1) = 1e16 := by
  have hlog : Int.log 2 |(1e16 : ℝ) + 1| = 53 := by
    rw [abs_of_pos (by norm_num)]
    exact int_log_two_eq _ 53 (by norm_num) (by norm_num)
  have hu : double_ulp_exp ((1e16 : ℝ) + 1) = 1 := by
    unfold double_ulp_exp
    rw [hlog]
    rfl
  have hf : Int.floor (((1e16 : ℝ) + 1) / 2 ^ (1 : Int)) = 5000000000000000 :=
    Int.floor_eq_iff.mpr ⟨by norm_num, by norm_num⟩
  unfold round_double
  rw [hu]
  unfold round_ties_even
  rw [hf]
  norm_num

theorem round_double_one : round_double (1 : ℝ) = 1 := by
  have h := round_double_of_representable 1 0 (by norm_num) (by norm_num)
  simpa using h

theorem round_double_four : round_double (4 : ℝ) = 4 := by
  have h := round_double_of_representable 4 0 (by norm_num) (by norm_num)
  simpa using h

theorem round_double_half : round_double (0.5 : ℝ) = 0.5 := by
  have h := round_double_of_representable 1 (-1) (by norm_num) (by norm_num)
  have e : ((1 : Int) : ℝ) * 2 ^ (-1 : Int) = 0.5 := by norm_num
  rwa [e] at h

/-- A power of two down to the smallest positive binary64 number `2^(-1074)` is its own
rounding. -/
theorem round_double_two_zpow (e : Int) (he : -1074 ≤ e) :
    round_double ((2 : ℝ) ^ e) = 2 ^ e := by
  have h := round_double_of_representable 1 e (by norm_num) he
  simpa using h

/-! ## Without rounding the rounded loops are the exact loops -/

section RoundedId

variable {α : Type} [LinearOrderedField α]

theorem integrate_loop_fl_id (f : α → α) (dx b : α) (fuel : Nat) (x0 x1 s : α) :
    integrate_loop_fl id f dx b fuel x0 x1 s = integrate_loop f dx b fuel x0 x1 s := by
  induction fuel generalizing x0 x1 s with
  | zero => rfl
  | succ fuel ih =>
    unfold integrate_loop_fl integrate_loop
    simp only [id, ih]

/-- With `fl = id` the rounded `integrate` is `integrate`. -/
theorem integrate_fl_id (fuel : Nat) (f : α → α) (a b : α) (N : Nat) :
    integrate_fl id fuel f a b N = integrate fuel f a b N := by
  unfold integrate_fl integrate
  simp only [id, integrate_loop_fl_id]

/-- With `fl = id` the rounded constructor is the constructor. -/
theorem vt_create_fl_id (sde : BlackScholes α) (lamb : α) (N : Nat)
    (sigma_target T v0 L0 : α) :
    VolatilityTarget.create_fl id sde lamb N sigma_target T v0 L0 =
      VolatilityTarget.create sde lamb N sigma_target T v0 L0 := rfl

/-- With `fl = id` the rounded loop body of `compute_vt_level` is the loop body. -/
theorem vt_step_fl_id (m : CMath α) (vt : VolatilityTarget α) (path : List α) (st : α × α)
    (i : Nat) : vt.vt_step_fl id m path st i = vt.vt_step m path st i := rfl

/-- With `fl = id` the rounded loop of `compute_vt_level` is the loop. -/
theorem vt_loop_fl_id (m : CMath α) (vt : VolatilityTarget α) (path : List α) (k : Nat) :
    vt.vt_loop_fl id m path k = vt.vt_loop m path k := rfl

theorem populate_path_loop_fl_id (m : CMath α) (bs : BlackScholes α) (rho : α)
    (dtimes shocks : List α) (lev : α) (path : List α) :
    bs.populate_path_loop_fl id m rho dtimes shocks lev path =
      bs.populate_path_loop m rho dtimes shocks lev path := by
  induction dtimes generalizing shocks lev path with
  | nil => cases shocks <;> rfl
  | cons dt it_dt ih =>
    cases shocks with
    | nil => rfl
    | cons z it_rn =>
      unfold BlackScholes.populate_path_loop_fl BlackScholes.populate_path_loop
      simp only [id, ih]

/-- With `fl = id` the rounded `populate_path` is `populate_path`. -/
theorem populate_path_fl_id (m : CMath α) (bs : BlackScholes α) (old dtimes shocks : List α) :
    bs.populate_path_fl id m old dtimes shocks = bs.populate_path m old dtimes shocks := by
  unfold BlackScholes.populate_path_fl BlackScholes.populate_path
  simp only [id, populate_path_loop_fl_id]

end RoundedId

/-! ## `integrate` in double arithmetic -/

/-- With every operation rounded, whatever the rounding, `integrate` throws if and only if
`a ≥ b` or `N = 0`: the two `ASSERT`s compare the arguments as they are. -/
theorem integrate_fl_throws_iff {α : Type} [LinearOrderedField α] (fl : α → α) (fuel : Nat)
    (f : α → α) (a b : α) (N : Nat) :
    (∃ msg, integrate_fl fl fuel f a b N = some (.error msg)) ↔ (b ≤ a ∨ N = 0) := by
  unfold integrate_fl
  by_cases hab : a < b
  · by_cases hN : N > 0
    · rw [if_neg (not_not.mpr hab), if_neg (not_not.mpr hN)]
      constructor
      · rintro ⟨msg, hmsg⟩
        revert hmsg
        simp only
        cases integrate_loop_fl fl f (fl (fl (b - a) / fl (N : α))) b fuel a
          (fl (a + fl (fl (b - a) / fl (N : α)))) 0.0 <;> simp
      · rintro (h | h)
        · exact absurd hab (not_lt.mpr h)
        · omega
    · rw [if_neg (not_not.mpr hab), if_pos hN]
      exact ⟨fun _ => Or.inr (by omega), fun _ => ⟨_, rfl⟩⟩
  · rw [if_pos hab]
    exact ⟨fun _ => Or.inl (not_lt.mp hab), fun _ => ⟨_, rfl⟩⟩

/-- Once both ends of the current subinterval are `1e16` and the step is `1`, the loop of
`integrate` towards `b = 1e16 + 4` makes no progress in double arithmetic: `1e16 + 1` rounds
back to `1e16`, the test `x1 < b` stays true, and no number of loop tests ends the loop. -/
theorem integrate_loop_fl_stalls (f : ℝ → ℝ) (fuel : Nat) (s : ℝ) :
    integrate_loop_fl round_double f 1 (1e16 + 4) fuel 1e16 1e16 s = none := by
  induction fuel generalizing s with
  | zero => rfl
  | succ fuel ih =>
    unfold integrate_loop_fl
    rw [if_pos (by norm_num), round_double_1e16_add_one]
    exact ih _

/-- C19 (violated by the code). The call `integrate(f, 1e16, 1e16 + 4, 4)` has `a < b` and
`N ≥ 1`, all three arguments are binary64 numbers, and in double arithmetic it returns nothing,
for every integrand `f` and every bound on the number of loop tests: `dx = 4/4 = 1`, and
`x1 = a + dx = 1e16 + 1` rounds to `1e16`, so that `x1 += dx` leaves `x1` at `1e16 < b` for
ever. -/
theorem integrate_never_returns :
    (1e16 : ℝ) < 1e16 + 4 ∧ 1 ≤ 4 ∧
      ∀ (f : ℝ → ℝ) (fuel : Nat),
        integrate_fl round_double fuel f 1e16 (1e16 + 4) 4 = none := by
  refine ⟨by norm_num, by norm_num, ?_⟩
  intro f fuel
  have hdx : round_double (round_double ((1e16 : ℝ) + 4 - 1e16) / round_double ((4 : Nat) : ℝ))
      = 1 := by
    rw [show (1e16 : ℝ) + 4 - 1e16 = 4 by ring, show ((4 : Nat) : ℝ) = 4 by norm_num,
      round_double_four, div_self (by norm_num), round_double_one]
  unfold integrate_fl
  rw [if_neg (not_not.mpr (by norm_num)), if_neg (by norm_num)]
  simp only [hdx, round_double_1e16_add_one, integrate_loop_fl_stalls, Option.map_none']

/-! ## The variance estimate in double arithmetic -/

theorem VolatilityTarget.vt_loop_fl_succ {α : Type} [LinearOrderedField α] (fl : α → α)
    (m : CMath α) (vt : VolatilityTarget α) (path : List α) (k : Nat) :
    vt.vt_loop_fl fl m path (k + 1)
      = vt.vt_step_fl fl m path (vt.vt_loop_fl fl m path k) (k + 1) := by
  simp only [VolatilityTarget.vt_loop_fl, List.range'_1_concat, List.foldl_append,
    List.foldl_cons, List.foldl_nil, Nat.add_comm 1 k]

/-- The rounded constructor accepts `λ = 0.5`, `N = 1100`, `σ* = 0.25`, `T = 1`, `v0 = 1`,
`L0 = 1` and builds `long_engine`. -/
theorem long_engine_created :
    VolatilityTarget.create_fl round_double (dyadic_model : BlackScholes ℝ) 0.5 1100 0.25 1 1 1
      = .ok long_engine := by
  have z : (0.0 : ℝ) = 0 := by norm_num
  have o : (1.0 : ℝ) = 1 := by norm_num
  have h1 : (0 : ℝ) < 0.5 ∧ (0.5 : ℝ) < 1 := by norm_num
  have h2 : (0 : ℝ) < 0.25 := by norm_num
  have h3 : (1e-12 : ℝ) < 1 := by norm_num
  simp [VolatilityTarget.create_fl, long_engine, z, o, h1.1, h1.2, h2, h3]

/-- On the constant path of 1101 entries `3` the rounded loop body of `long_engine` has simple
return `3/3 - 1 = 0` and halves the variance estimate: `var` becomes `fl(fl(0.5 * var))`. -/
theorem long_engine_var_step (k : Nat) (hk : k + 1 ≤ 1100) (st : ℝ × ℝ) :
    ((long_engine : VolatilityTarget ℝ).vt_step_fl round_double realMath
        (List.replicate 1101 3) st (k + 1)).2
      = round_double (round_double (0.5 * st.2)) := by
  have hi : (List.replicate 1101 (3 : ℝ)).getD (k + 1) 0 = 3 := by
    rw [List.getD_eq_getElem?_getD, List.getElem?_replicate_of_lt (by omega)]
    rfl
  have hj : (List.replicate 1101 (3 : ℝ)).getD (k + 1 - 1) 0 = 3 := by
    rw [List.getD_eq_getElem?_getD, List.getElem?_replicate_of_lt (by omega)]
    rfl
  have o : (1.0 : ℝ) = 1 := by norm_num
  simp only [VolatilityTarget.vt_step_fl, hi, hj, long_engine, o]
  rw [div_self (by norm_num : (3 : ℝ) ≠ 0), round_double_one, sub_self, round_double_zero,
    mul_zero, round_double_zero, zero_div, round_double_zero, add_zero]

/-- On the constant path the variance estimate of `long_engine` after `k ≤ 1074` passes is
exactly `2^(-k)`, a binary64 number (subnormal from `k = 1023` on). -/
theorem long_engine_var (k : Nat) (hk : k ≤ 1074) :
    ((long_engine : VolatilityTarget ℝ).vt_loop_fl round_double realMath
        (List.replicate 1101 3) k).2 = (2 : ℝ) ^ (-(k : Int)) := by
  induction k with
  | zero =>
    show (1 : ℝ) = 2 ^ (-((0 : Nat) : Int))
    norm_num
  | succ k ih =>
    rw [VolatilityTarget.vt_loop_fl_succ, long_engine_var_step k (by omega), ih (by omega)]
    have e : (0.5 : ℝ) * 2 ^ (-(k : Int)) = 2 ^ (-((k + 1 : Nat) : Int)) := by
      rw [show (-((k + 1 : Nat) : Int)) = -(k : Int) + (-1) by push_cast; ring,
        zpow_add₀ (by norm_num : (2 : ℝ) ≠ 0)]
      norm_num
      ring
    rw [e, round_double_two_zpow _ (by push_cast; omega),
      round_double_two_zpow _ (by push_cast; omega)]

/-- C6 (violated by the code). The constructor accepts `λ = 0.5`, `N = 1100`, `σ* = 0.25`,
`T = 1`, `v0 = 1`, `L0 = 1`, and the path of `N + 1 = 1101` entries equal to `3` has the
required length and no zero entry; yet in double arithmetic the variance estimate `var` held by
the loop of `compute_vt_level` is exactly `0` after pass 1075 (`var` is halved at every pass,
and `0.5 * 2^(-1074)` rounds to `0`), so the divisor `sqrt(var)` of the leverage ratio of
pass 1076 (one of the 1100 passes) is `0`. -/
theorem compute_vt_level_var_underflows :
    VolatilityTarget.create_fl round_double (dyadic_model : BlackScholes ℝ) 0.5 1100 0.25 1 1 1
        = .ok long_engine ∧
      (List.replicate 1101 (3 : ℝ)).length = 1100 + 1 ∧
      (∀ x ∈ List.replicate 1101 (3 : ℝ), x ≠ 0) ∧
      1075 < 1100 ∧
      ((long_engine : VolatilityTarget ℝ).vt_loop_fl round_double realMath
        (List.replicate 1101 3) 1075).2 = 0 ∧
      realMath.sqrt ((long_engine : VolatilityTarget ℝ).vt_loop_fl round_double realMath
        (List.replicate 1101 3) 1075).2 = 0 := by
  have hvar : ((long_engine : VolatilityTarget ℝ).vt_loop_fl round_double realMath
      (List.replicate 1101 3) 1075).2 = 0 := by
    rw [VolatilityTarget.vt_loop_fl_succ, long_engine_var_step 1074 (by norm_num),
      long_engine_var 1074 (le_refl _)]
    have e : (0.5 : ℝ) * 2 ^ (-((1074 : Nat) : Int)) = 2 ^ (-1075 : Int) := by
      rw [show (-1075 : Int) = -((1074 : Nat) : Int) + (-1) by norm_num,
        zpow_add₀ (by norm_num : (2 : ℝ) ≠ 0)]
      norm_num
    have ht : |(2 : ℝ) ^ (-1075 : Int)| ≤ 2 ^ (-1075 : Int) :=
      le_of_eq (abs_of_pos (zpow_pos (by norm_num) _))
    rw [e, round_double_of_tiny ((2 : ℝ) ^ (-1075 : Int)) ht, round_double_zero]
  refine ⟨long_engine_created, List.length_replicate _ _, ?_, by norm_num, hvar, ?_⟩
  · intro x hx
    rw [List.eq_of_mem_replicate hx]
    norm_num
  · rw [hvar, realMath_sqrt, Real.sqrt_zero]

/-! ## Simulated paths in double arithmetic -/

/-- The exponential of `-1000.125` is below half the smallest positive binary64 number. -/
theorem exp_neg_1000_le : Real.exp (-1000.125) ≤ (2 : ℝ) ^ (-1075 : Int) := by
  have h1 : (2.7 : ℝ) ≤ Real.exp 1 := by
    have := Real.exp_one_gt_d9
    linarith
  have h2 : (2 : ℝ) ^ (1075 : Nat) ≤ Real.exp 1000 := by
    have e : Real.exp 1000 = Real.exp 1 ^ (1000 : Nat) := by
      rw [← Real.exp_nat_mul]
      norm_num
    rw [e]
    calc (2 : ℝ) ^ (1075 : Nat) ≤ (2.7 : ℝ) ^ (1000 : Nat) := by norm_num
      _ ≤ Real.exp 1 ^ (1000 : Nat) := pow_le_pow_left₀ (by norm_num) h1 _
  have h3 : Real.exp (-1000.125) ≤ Real.exp (-1000) := Real.exp_le_exp.mpr (by norm_num)
  have h4 : Real.exp (-1000) ≤ (2 : ℝ) ^ (-1075 : Int) := by
    rw [Real.exp_neg, zpow_neg, show ((1075 : Int)) = ((1075 : Nat) : Int) from rfl,
      zpow_natCast]
    exact inv_anti₀ (by positivity) h2
  exact h3.trans h4

/-- C28 (violated by the code). The model `r = 0`, `q = 0`, `σ = 0.5`, `S0 = 1` is accepted by
the constructor and `dtimes = [1, 1]`, `shocks = [-2000, 0]` have equal lengths (all binary64
numbers), yet in double arithmetic `populate_path` produces the path `[1, 0, 0]`: the exponent
of the first step is `-0.125 + 0.5 * (-2000) = -1000.125`, whose exponential rounds to `0`.
The elements at indices 1 and 2 are not `> 0`, and at `i = 2` the divisor `path[i-1]` of
`compute_vt_level` is `0`. -/
theorem populate_path_reaches_zero :
    BlackScholes.create (0 : ℝ) 0 0.5 1 = .ok dyadic_model ∧
      ([1, 1] : List ℝ).length = ([-2000, 0] : List ℝ).length ∧
      (dyadic_model : BlackScholes ℝ).populate_path_fl round_double realMath [] [1, 1]
        [-2000, 0] = ([1, 0, 0], .ok ()) := by
  refine ⟨bs_create_of_pos (by norm_num) (by norm_num), rfl, ?_⟩
  have hq : round_double ((0.25 : ℝ)) = 0.25 := by
    have h := round_double_of_representable 1 (-2) (by norm_num) (by norm_num)
    have e : ((1 : Int) : ℝ) * 2 ^ (-2 : Int) = 0.25 := by norm_num
    rwa [e] at h
  have he : round_double ((0.125 : ℝ)) = 0.125 := by
    have h := round_double_of_representable 1 (-3) (by norm_num) (by norm_num)
    have e : ((1 : Int) : ℝ) * 2 ^ (-3 : Int) = 0.125 := by norm_num
    rwa [e] at h
  have hne : round_double ((-0.125 : ℝ)) = -0.125 := by
    have h := round_double_of_representable (-1) (-3) (by norm_num) (by norm_num)
    have e : ((-1 : Int) : ℝ) * 2 ^ (-3 : Int) = -0.125 := by norm_num
    rwa [e] at h
  have hk : round_double ((-1000 : ℝ)) = -1000 := by
    have h := round_double_of_representable (-1000) 0 (by norm_num) (by norm_num)
    simpa using h
  have hs : round_double ((-1000.125 : ℝ)) = -1000.125 := by
    have h := round_double_of_representable (-8001) (-3) (by norm_num) (by norm_num)
    have e : ((-8001 : Int) : ℝ) * 2 ^ (-3 : Int) = -1000.125 := by norm_num
    rwa [e] at h
  have hexp : round_double (Real.exp (-1000.125)) = 0 :=
    round_double_of_tiny _ (by rw [abs_of_pos (Real.exp_pos _)]; exact exp_neg_1000_le)
  have a1 : (0.5 : ℝ) * 0.5 = 0.25 := by norm_num
  have a2 : (0.25 : ℝ) * 0.5 = 0.125 := by norm_num
  have a3 : (0 : ℝ) - 0.125 = -0.125 := by norm_num
  have a4 : (0.5 : ℝ) * -2000 = -1000 := by norm_num
  have a5 : (-0.125 : ℝ) + -1000 = -1000.125 := by norm_num
  simp only [BlackScholes.populate_path_fl, BlackScholes.populate_path_loop_fl, dyadic_model,
    List.length_cons, List.length_nil, not_true_eq_false, if_false, List.take_zero,
    List.nil_append, List.cons_append, sub_self, round_double_zero, round_double_half, a1, hq,
    a2, he, a3, hne, mul_one, realMath_sqrt, realMath_exp, Real.sqrt_one, round_double_one, a4,
    hk, a5, hs, hexp, mul_zero, zero_mul, one_mul]

end cltvt
